import Mathlib

/-!
# Verification of the BEA NIPA transform engine

A shallow embedding of `src/nodes/nipa_transform.py` (the transform engine of
the `bureau-economic-analysis` repository) together with proofs about it.

Modelling conventions:
* Python strings are modelled as `List Char` (`Str`); string literals are
  injected with `str`.  Python's `str.lower` is modelled with `Char.toLower`
  (ASCII case mapping, which is all that BEA table names and descriptions use).
* Python `float` values are modelled as exact rationals (`ℚ`); `float(s)`
  is modelled by `pyFloat?`, a parser for finite decimal/scientific literals
  (the `inf`/`nan`/underscore forms of CPython never occur in BEA data and
  no property below depends on them).
* Python dicts keyed by strings are modelled as association lists with
  insertion-order append and in-place overwrite (`setA`), matching CPython's
  insertion-ordered dicts; `defaultdict(dict)` access is modelled by
  `getA … |>.getD []`.
* `sorted` on duplicate-free string lists is modelled by insertion sort over
  the code-point lexicographic order (`leStr`); any sorting algorithm agrees
  on duplicate-free input, so this is faithful to CPython's sort.
* A raised exception is modelled by `Except.error` carrying the diagnostic
  message; `run`'s loop propagates errors exactly as an uncaught Python
  exception would.
-/

deriving instance DecidableEq for Except

namespace BEA

variable {α : Type} {β : Type} [DecidableEq α]

/-- Python strings, modelled as lists of characters. -/
abbrev Str := List Char

/-- Inject a Lean string literal as a `Str`. -/
def str (s : String) : Str := s.data

/-- Code-point lexicographic `<=` on strings, as CPython compares `str`. -/
def lexLe : Str → Str → Bool
  | [], _ => true
  | _ :: _, [] => false
  | a :: as, b :: bs => if a < b then true else if a = b then lexLe as bs else false

/-- Code-point lexicographic `<` on strings, as CPython's `s1 < s2`. -/
def lexLt : Str → Str → Bool
  | _, [] => false
  | [], _ :: _ => true
  | a :: as, b :: bs => if a < b then true else if a = b then lexLt as bs else false

/-- The ordering relation used to model Python's `sorted` on strings. -/
def leStr (a b : Str) : Prop := lexLe a b = true

instance : DecidableRel leStr := fun a b => instDecidableEqBool (lexLe a b) true

/-- Python's `sorted` on a list of strings. -/
def sortStrs (l : List Str) : List Str := l.insertionSort leStr

/-- One step of first-seen-order deduplication: append `x` unless already seen.
This is the shape shared by the pivot's `column_order`/`seen_columns` pair
(the set mirrors membership in the list) and by insertion of a fresh key into
a Python dict. -/
def dedupStep (acc : List α) (x : α) : List α := if x ∈ acc then acc else acc ++ [x]

/-- First-seen-order list of the distinct elements of `xs`. -/
def seenOrder (xs : List α) : List α := xs.foldl dedupStep []

/-- Python dict read `m.get(k)`: first (and only) binding for `k`. -/
def getA : List (α × β) → α → Option β
  | [], _ => none
  | (k, v) :: rest, q => if q = k then some v else getA rest q

/-- Python dict write `m[k] = v`: overwrite in place, or append a new binding
at the end (CPython dicts preserve insertion order). -/
def setA : List (α × β) → α → β → List (α × β)
  | [], k, v => [(k, v)]
  | (k', v') :: rest, k, v =>
      if k = k' then (k, v) :: rest else (k', v') :: setA rest k v

/-- The keys of an association list, in insertion order. -/
def keysA (m : List (α × β)) : List α := m.map Prod.fst

/-- The decimal digit character for `d < 10`. -/
def digitChar : Nat → Char
  | 0 => '0' | 1 => '1' | 2 => '2' | 3 => '3' | 4 => '4'
  | 5 => '5' | 6 => '6' | 7 => '7' | 8 => '8' | _ => '9'

/-- Little-endian decimal digits of `n`, with enough fuel; agrees with
`Nat.digits 10 n` whenever `n <= fuel` (a structurally recursive definition
is used so that the kernel can evaluate it). -/
def natDigitsAux : Nat → Nat → List Nat
  | 0, _ => []
  | _ + 1, 0 => []
  | fuel + 1, n + 1 => ((n + 1) % 10) :: natDigitsAux fuel ((n + 1) / 10)

/-- Python's `str(n)` for a natural number. -/
def natStr (n : Nat) : Str :=
  if n = 0 then ['0'] else ((natDigitsAux n n).reverse).map digitChar

/-- The index of the first occurrence of `tn` in a list of strings (the
position `sorted(...).index(tn)` / `enumerate` reaches it at). -/
def posOf (tn : Str) : List Str → Nat
  | [] => 0
  | n :: ns => if tn = n then 0 else posOf tn ns + 1

/-! ## Character-level helpers (Python `str` methods) -/

/-- Python's `\s` (ASCII range) and the whitespace stripped by `str.strip()`. -/
def pyIsSpace (c : Char) : Bool :=
  c == ' ' || c == '\t' || c == '\n' || c == '\r' || c == '\x0b' || c == '\x0c'

/-- Python's `str.lower()` (ASCII case mapping, see module comment). -/
def lowerStr (s : Str) : Str := s.map Char.toLower

/-- Python's `str.strip()`. -/
def pyStrip (s : Str) : Str :=
  ((s.dropWhile pyIsSpace).reverse.dropWhile pyIsSpace).reverse

mutual

/-- Replace every maximal run of whitespace by a single underscore:
`re.sub(r'\s+', '_', text)`.  `skipWsThen` consumes the remainder of a
whitespace run whose first character already emitted the underscore. -/
def collapseWs : Str → Str
  | [] => []
  | c :: rest =>
      if pyIsSpace c then '_' :: skipWsThen rest
      else c :: collapseWs rest

/-- See `collapseWs`. -/
def skipWsThen : Str → Str
  | [] => []
  | c :: rest =>
      if pyIsSpace c then skipWsThen rest
      else c :: collapseWs rest

end

/-- `slugify` (nipa_transform.py:18-23): lowercase, drop characters outside
`[a-z0-9\s]`, strip, collapse whitespace runs to `_`. -/
def slugify (text : Str) : Str :=
  let lowered := lowerStr text
  let kept := lowered.filter fun c =>
    ('a' ≤ c && c ≤ 'z') || ('0' ≤ c && c ≤ '9') || pyIsSpace c
  collapseWs (pyStrip kept)

/-! ## Value Parser (`parse_value`, nipa_transform.py:25-38) -/

/-- Numeric value of a decimal digit character. -/
def charVal (c : Char) : Nat := c.toNat - 48

/-- Value of a string of decimal digits. -/
def digitsVal (s : Str) : Nat := s.foldl (fun a c => 10 * a + charVal c) 0

/-- Split a string at the first `e`/`E` (exponent marker of a float literal). -/
def splitExp : Str → Str × Option Str
  | [] => ([], none)
  | c :: rest =>
      if c == 'e' || c == 'E' then ([], some rest)
      else
        let (m, e) := splitExp rest
        (c :: m, e)

/-- Parse the mantissa of a float literal: `d+`, `d+.d*`, or `.d+`.
Returns the digit string's value and the number of fractional digits, so the
mantissa denotes `value / 10 ^ fracLen`. -/
def parseMant (m : Str) : Option (Nat × Nat) :=
  let ip := m.takeWhile Char.isDigit
  match m.drop ip.length with
  | [] => if ip = [] then none else some (digitsVal ip, 0)
  | '.' :: rest =>
      let fp := rest.takeWhile Char.isDigit
      if rest.drop fp.length = [] then
        if ip = [] ∧ fp = [] then none
        else some (digitsVal (ip ++ fp), fp.length)
      else none
  | _ => none

/-- Parse the exponent digits (with optional sign) of a float literal. -/
def parseExpPart (e : Str) : Option ℤ :=
  match e with
  | '+' :: rest =>
      if rest ≠ [] ∧ rest.all Char.isDigit then some (digitsVal rest : ℤ) else none
  | '-' :: rest =>
      if rest ≠ [] ∧ rest.all Char.isDigit then some (-(digitsVal rest : ℤ)) else none
  | _ => if e ≠ [] ∧ e.all Char.isDigit then some (digitsVal e : ℤ) else none

/-- The rational `sign * mant / 10 ^ fracLen * 10 ^ e`, assembled with
integer arithmetic and `mkRat` (equivalent to the rational-arithmetic
formula, but evaluable by the kernel). -/
def ratVal (sign : ℤ) (mant : Nat) (fracLen : Nat) (e : ℤ) : ℚ :=
  let ex : ℤ := e - fracLen
  if 0 ≤ ex then mkRat (sign * mant * ((10 : Nat) ^ ex.toNat : Nat)) 1
  else mkRat (sign * mant) ((10 : Nat) ^ (-ex).toNat)

/-- CPython's `float(s)` on finite decimal/scientific literals, with the value
kept exact as a rational (see module comment). -/
def pyFloat? (s : Str) : Option ℚ :=
  let sr : ℤ × Str :=
    match s with
    | '+' :: rest => (1, rest)
    | '-' :: rest => (-1, rest)
    | _ => (1, s)
  let (m, eo) := splitExp sr.2
  match parseMant m, eo with
  | some mf, none => some (ratVal sr.1 mf.1 mf.2 0)
  | some mf, some e => (parseExpPart e).map fun k => ratVal sr.1 mf.1 mf.2 k
  | none, _ => none

/-- `parse_value` (nipa_transform.py:25-38): strip commas and whitespace, map
the empty string and the sentinel tuple to `None`, and otherwise
`try: float(...) except: None`. -/
def parse_value (value : Option Str) : Option ℚ :=
  match value with
  | none => none
  | some s =>
      let cleaned := pyStrip (s.filter fun c => !(c == ','))
      if cleaned = [] ∨ cleaned = str "..." ∨ cleaned = str "----" ∨ cleaned = str "n.a."
      then none
      else pyFloat? cleaned

/-! ## Period Normalizer (nipa_transform.py:40-60) -/

/-- The regex `^(\d{4})Q([1-4])$`. -/
def qToken (p : Str) : Bool :=
  match p with
  | [y1, y2, y3, y4, q, n] =>
      y1.isDigit && y2.isDigit && y3.isDigit && y4.isDigit && q == 'Q' &&
        (n == '1' || n == '2' || n == '3' || n == '4')
  | _ => false

/-- The regex `^(\d{4})M(\d{2})$`. -/
def mToken (p : Str) : Bool :=
  match p with
  | [y1, y2, y3, y4, m, d1, d2] =>
      y1.isDigit && y2.isDigit && y3.isDigit && y4.isDigit && m == 'M' &&
        d1.isDigit && d2.isDigit
  | _ => false

/-- `detect_frequency` (nipa_transform.py:53-60). -/
def detect_frequency (time_period : Str) : Str :=
  if qToken time_period then str "quarterly"
  else if mToken time_period then str "monthly"
  else str "annual"

/-- `normalize_date` (nipa_transform.py:40-51): rewrite `YYYYQn` to `YYYY-Qn`
for quarterly, `YYYYMmm` to `YYYY-mm` for monthly, otherwise return the token
unchanged. -/
def normalize_date (time_period : Str) (frequency : Str) : Str :=
  if frequency = str "quarterly" then
    match time_period with
    | [y1, y2, y3, y4, q, n] =>
        if y1.isDigit && y2.isDigit && y3.isDigit && y4.isDigit && q == 'Q' &&
            (n == '1' || n == '2' || n == '3' || n == '4')
        then [y1, y2, y3, y4, '-', 'Q', n]
        else time_period
    | _ => time_period
  else if frequency = str "monthly" then
    match time_period with
    | [y1, y2, y3, y4, m, d1, d2] =>
        if y1.isDigit && y2.isDigit && y3.isDigit && y4.isDigit && m == 'M' &&
            d1.isDigit && d2.isDigit
        then [y1, y2, y3, y4, '-', d1, d2]
        else time_period
    | _ => time_period
  else time_period

/-! ## Semantic Classifier (`extract_semantic_name`, nipa_transform.py:62-253)

The description is probed with
`re.search(r'Table (\d+)\.(\d+)\.?\d*([A-Z])?\. (.+?) \([AQM]', description)`.
`search` below implements exactly that pattern with Python's leftmost-match,
greedy/lazy backtracking semantics, hand-compiled: after `Table <d+>.<d+>`
the only alternatives the engine can take are (a) consume `.`, the maximal
digit run, an optional capital, then `. `; (b) consume `.`, the maximal digit
run, then `. ` without a capital; (c) leave `\.?\d*([A-Z])?` empty and let
`\. ` consume the dot (requiring a space next); (d) with no dot present,
capture a capital then `. `.  (Backtracking the greedy `\d*` to fewer than
the maximal run always fails, because the next character is then a digit and
can match neither `[A-Z]` nor `\.`.)  The lazy `(.+?)` takes the shortest
non-empty newline-free prefix followed by a space, `(`, and one of `A`/`Q`/`M`. -/

/-- The captured groups of the table-description pattern. -/
structure TMatch where
  secDigits : Str
  subDigits : Str
  variant : Option Char
  title : Str
deriving DecidableEq

/-- Does the remainder close the lazy title group, i.e. start with ` ([AQM]`? -/
def closesTitle : Str → Bool
  | ' ' :: '(' :: x :: _ => x == 'A' || x == 'Q' || x == 'M'
  | _ => false

/-- Lazy scan for `(.+?) \([AQM]` after at least one title character is in
`acc` (stored reversed); `.` does not match a newline.  (`closesTitle []` is
false, so the empty-remainder case collapses to `none`.) -/
def titleGo : Str → Str → Option Str
  | _, [] => none
  | acc, c :: rest =>
      if closesTitle (c :: rest) then some acc.reverse
      else if c = '\n' then none else titleGo (c :: acc) rest

/-- Match `(.+?) \([AQM]` and return the title group. -/
def lazyTitleScan : Str → Option Str
  | [] => none
  | c :: rest => if c = '\n' then none else titleGo [c] rest

/-- ASCII capital letter, the character class `[A-Z]`. -/
def isUpperAZ (c : Char) : Bool := 'A' ≤ c && c ≤ 'Z'

/-- Match `\. (.+?) \([AQM]` and pair the title with the chosen variant. -/
def branchTitle (variant : Option Char) (rem : Str) : Option (Option Char × Str) :=
  match rem with
  | '.' :: ' ' :: tl => (lazyTitleScan tl).map fun t => (variant, t)
  | _ => none

/-- Match `\.?\d*([A-Z])?\. (.+?) \([AQM]` at the position after the
subsection digits, trying the backtracking alternatives in the engine's
preference order (see section comment). -/
def matchMiddle (r : Str) : Option (Option Char × Str) :=
  match r with
  | '.' :: r1 =>
      let m := r1.takeWhile Char.isDigit
      let r2 := r1.drop m.length
      let b1a :=
        match r2 with
        | v :: rr => if isUpperAZ v then branchTitle (some v) rr else none
        | [] => none
      match b1a with
      | some res => some res
      | none =>
          match branchTitle none r2 with
          | some res => some res
          | none => branchTitle none ('.' :: r1)
  | v :: rr => if isUpperAZ v then branchTitle (some v) rr else none
  | [] => none

/-- Match the full pattern anchored at the start of `s`. -/
def matchAt (s : Str) : Option TMatch :=
  if (str "Table ").isPrefixOf s then
    let r0 := s.drop 6
    let d1 := r0.takeWhile Char.isDigit
    if d1 = [] then none
    else
      match r0.drop d1.length with
      | '.' :: r1 =>
          let d2 := r1.takeWhile Char.isDigit
          if d2 = [] then none
          else (matchMiddle (r1.drop d2.length)).map fun vt => ⟨d1, d2, vt.1, vt.2⟩
      | _ => none
  else none

/-- `re.search`: try the pattern at every start position, leftmost wins. -/
def search : Str → Option TMatch
  | [] => none
  | c :: rest =>
      match matchAt (c :: rest) with
      | some m => some m
      | none => search rest

/-- `s in t` for Python strings. -/
def containsStr (needle : Str) : Str → Bool
  | [] => needle.isEmpty
  | c :: rest => needle.isPrefixOf (c :: rest) || containsStr needle rest

/-- The static `(section, subsection) -> subject` table
(nipa_transform.py:84-202), transcribed verbatim. -/
def subject_map : List ((String × String) × String) := [
  (("1", "1"), "gdp"),
  (("1", "2"), "gdp_by_product"),
  (("1", "3"), "value_added_by_sector"),
  (("1", "4"), "gdp_purchases_final_sales"),
  (("1", "5"), "gdp_expanded"),
  (("1", "6"), "domestic_purchases"),
  (("1", "7"), "gdp_gnp_nnp"),
  (("1", "8"), "gdp_command_basis"),
  (("1", "9"), "net_value_added"),
  (("1", "10"), "domestic_income"),
  (("1", "11"), "domestic_income_shares"),
  (("1", "12"), "national_income"),
  (("1", "13"), "national_income_by_sector"),
  (("1", "14"), "corporate_value_added"),
  (("1", "15"), "corporate_profit_per_unit"),
  (("1", "16"), "private_enterprise_income"),
  (("1", "17"), "gdp_gdi_aggregates"),
  (("2", "1"), "personal_income"),
  (("2", "2"), "personal_income_disposition"),
  (("2", "3"), "pce_by_function"),
  (("2", "4"), "pce_by_type"),
  (("2", "5"), "pce_bridges"),
  (("2", "6"), "personal_income_monthly"),
  (("2", "7"), "wages_monthly"),
  (("2", "8"), "pce_supplemental"),
  (("3", "1"), "govt_receipts_expenditures"),
  (("3", "2"), "federal_govt"),
  (("3", "3"), "state_local_govt"),
  (("3", "4"), "govt_social_benefits"),
  (("3", "5"), "govt_taxes"),
  (("3", "6"), "govt_contributions"),
  (("3", "7"), "govt_taxes_receipts"),
  (("3", "8"), "govt_subsidies"),
  (("3", "9"), "govt_consumption"),
  (("3", "10"), "govt_consumption_output"),
  (("3", "11"), "defense_spending"),
  (("3", "12"), "govt_output"),
  (("3", "13"), "govt_employment"),
  (("3", "14"), "govt_compensation"),
  (("3", "15"), "govt_investment_detail"),
  (("3", "16"), "govt_receipts_detail"),
  (("3", "17"), "govt_spending_function"),
  (("3", "18"), "federal_govt_detail"),
  (("3", "19"), "state_local_detail"),
  (("3", "20"), "social_insurance"),
  (("3", "21"), "social_insurance_funds"),
  (("4", "1"), "trade_balance"),
  (("4", "2"), "exports_imports"),
  (("4", "3"), "trade_detail"),
  (("5", "1"), "saving_investment"),
  (("5", "2"), "private_investment_type"),
  (("5", "3"), "private_fixed_investment"),
  (("5", "4"), "nonresidential_investment"),
  (("5", "5"), "residential_investment"),
  (("5", "6"), "investment_equipment"),
  (("5", "7"), "inventories"),
  (("5", "8"), "inventories_detail"),
  (("5", "9"), "govt_fixed_investment"),
  (("5", "10"), "capital_stock"),
  (("5", "11"), "capital_consumption"),
  (("6", "1"), "income_by_industry"),
  (("6", "2"), "compensation_by_industry"),
  (("6", "3"), "wages_by_industry"),
  (("6", "4"), "supplements_by_industry"),
  (("6", "5"), "employment_by_industry"),
  (("6", "6"), "hours_by_industry"),
  (("6", "7"), "labor_productivity"),
  (("6", "8"), "labor_costs"),
  (("6", "9"), "proprietors_income"),
  (("6", "10"), "rental_income"),
  (("6", "11"), "corporate_profits_by_industry"),
  (("6", "12"), "net_interest"),
  (("6", "13"), "taxes_by_industry"),
  (("6", "14"), "capital_consumption_by_industry"),
  (("6", "15"), "undistributed_profits"),
  (("6", "16"), "corporate_profits"),
  (("6", "17"), "corporate_profits_detail"),
  (("6", "18"), "profits_iva_ccadj"),
  (("6", "19"), "profits_financial_nonfinancial"),
  (("6", "20"), "profits_receipts"),
  (("6", "21"), "profits_taxes"),
  (("6", "22"), "profits_after_tax"),
  (("7", "1"), "motor_vehicle_output"),
  (("7", "2"), "auto_output"),
  (("7", "3"), "farm_sector"),
  (("7", "4"), "housing"),
  (("7", "5"), "housing_output"),
  (("7", "6"), "nonprofit_institutions"),
  (("7", "7"), "food_services"),
  (("7", "8"), "petroleum"),
  (("7", "9"), "energy"),
  (("7", "10"), "cpi_pce_comparison"),
  (("7", "11"), "implicit_deflators"),
  (("7", "12"), "real_pce_detail"),
  (("7", "13"), "pce_by_function_detail"),
  (("7", "14"), "farm_income"),
  (("7", "15"), "farm_income_detail"),
  (("7", "16"), "govt_social_insurance"),
  (("7", "17"), "employer_contributions"),
  (("7", "18"), "contributions_detail"),
  (("7", "20"), "pensions_defined_benefit"),
  (("7", "21"), "pensions_defined_contribution"),
  (("7", "22"), "pensions_federal"),
  (("7", "23"), "pensions_state_local"),
  (("7", "24"), "pensions_private"),
  (("7", "25"), "pensions_ira_keogh"),
  (("8", "1"), "gdp_nsa"),
  (("8", "3"), "federal_govt_nsa"),
  (("8", "4"), "state_local_govt_nsa")]

/-- The fallback `section -> name` table (nipa_transform.py:207-210). -/
def section_names : List (String × String) :=
  [("1", "gdp"), ("2", "personal"), ("3", "govt"), ("4", "trade"),
   ("5", "investment"), ("6", "industry"), ("7", "supplemental"), ("8", "nsa")]

/-- The ordered measurement phrase rules (nipa_transform.py:216-246). -/
def measurementOf (title : Str) : Str :=
  let tl := lowerStr title
  if containsStr (str "contributions to percent change in real") tl then str "contributions_real"
  else if containsStr (str "contributions to percent change in") tl && containsStr (str "price") tl then str "contributions_price"
  else if containsStr (str "contributions to percent change") tl then str "contributions"
  else if containsStr (str "percent change from quarter one year ago") tl then str "percent_change_yoy"
  else if containsStr (str "percent change from preceding period in prices") tl then str "price_percent_change"
  else if containsStr (str "percent change") tl then str "percent_change"
  else if containsStr (str "quantity indexes") tl || containsStr (str "quantity index") tl then str "quantity_index"
  else if containsStr (str "price indexes") tl || containsStr (str "price index") tl then str "price_index"
  else if containsStr (str "implicit price deflator") tl then str "deflator"
  else if containsStr (str "chained dollars") tl then str "chained_dollars"
  else if containsStr (str "percentage shares") tl then str "shares"
  else if containsStr (str "current dollars") tl then str "current_dollars"
  else if containsStr (str "relation of") tl then str "relation"
  else if containsStr (str "transactions of") tl then str "transactions"
  else str "level"

/-- `extract_semantic_name` (nipa_transform.py:62-253). -/
def extract_semantic_name (table_name description : Str) : Str × Str :=
  match search description with
  | none => (lowerStr table_name, str "data")
  | some m =>
      let subject0 : Str :=
        match (subject_map.lookup (String.mk m.secDigits, String.mk m.subDigits)).map str with
        | some s => s
        | none =>
            let base : Str :=
              match (section_names.lookup (String.mk m.secDigits)).map str with
              | some b => b
              | none => str "s" ++ m.secDigits
            base ++ str "_" ++ m.subDigits
      let measurement := measurementOf m.title
      let subject : Str :=
        match m.variant with
        | some v => subject0 ++ str "_" ++ [v.toLower]
        | none => subject0
      (subject, measurement)

/-! ## Pivot Engine (`transform_table_frequency`, nipa_transform.py:255-302) -/

/-- One raw observation record.  `r.get('TimePeriod', '')` and
`r.get('LineDescription', '')` default missing keys to the empty string, so
those fields are plain strings; `r.get('DataValue')` defaults to `None`. -/
structure RawRecord where
  timePeriod : Str
  lineDescription : Str
  dataValue : Option Str
deriving DecidableEq

/-- The normalized date a record contributes for a target frequency. -/
def recDate (frequency : Str) (r : RawRecord) : Str :=
  normalize_date r.timePeriod frequency

/-- The slugified column name a record contributes. -/
def recCol (r : RawRecord) : Str := slugify r.lineDescription

/-- A record survives the pivot filter for `frequency`: its period classifies
to that frequency, and it has a usable date, a non-empty line description and
a non-empty slugified column name (nipa_transform.py:264-279). -/
def survivesB (frequency : Str) (r : RawRecord) : Bool :=
  (detect_frequency r.timePeriod == frequency) &&
  !(recDate frequency r).isEmpty &&
  !r.lineDescription.isEmpty &&
  !(recCol r).isEmpty

/-- The pivot accumulator: `date_rows` (a dict of dicts) and `column_order`
(with `seen_columns` represented by membership in the list). -/
structure PivotState where
  dateRows : List (Str × List (Str × Option ℚ))
  columnOrder : List Str
deriving DecidableEq

/-- Processing of one record in the pivot loop (nipa_transform.py:264-285):
skip non-survivors; otherwise register the column in first-seen order and
execute `date_rows[date][col_name] = value`. -/
def stepRecord (frequency : Str) (st : PivotState) (r : RawRecord) : PivotState :=
  if survivesB frequency r then
    let date := recDate frequency r
    let col := recCol r
    let value := parse_value r.dataValue
    { dateRows := setA st.dateRows date (setA ((getA st.dateRows date).getD []) col value)
      columnOrder := dedupStep st.columnOrder col }
  else st

/-- A produced wide table: the `date` column is the first component of each
row, the `float64` data columns are listed in `columns`, and each row's
values are aligned with `columns`.  The pyarrow schema (`date` a non-null
string, every other column a nullable double) is carried by the Lean types. -/
structure WideTable where
  columns : List Str
  rows : List (Str × List (Option ℚ))
deriving DecidableEq

/-- `date_rows[date].get(col)` in the row-building loop: `some` the stored
(possibly null) value when the cell was written, `none` when the column is
absent for that date. -/
def cellGet (st : PivotState) (d c : Str) : Option (Option ℚ) :=
  getA ((getA st.dateRows d).getD []) c

/-- The parsed value of the last record (in input order) that survives the
filter and lands on the cell `(d, c)` — the value the pivot's overwriting
dict assignment leaves behind — or `none` if no such record exists. -/
def lastObs (frequency : Str) (records : List RawRecord) (d c : Str) :
    Option (Option ℚ) :=
  ((records.filter fun r =>
      survivesB frequency r && (recDate frequency r == d) && (recCol r == c)).getLast?).map
    fun r => parse_value r.dataValue

/-- `transform_table_frequency` (nipa_transform.py:255-302). -/
def transform_table_frequency (records : List RawRecord) (frequency : Str) :
    Option WideTable :=
  if records = [] then none
  else
    let st := records.foldl (stepRecord frequency) ⟨[], []⟩
    if st.dateRows = [] then none
    else
      some { columns := st.columnOrder
             rows := (sortStrs (keysA st.dateRows)).map fun d =>
               (d, st.columnOrder.map fun c => (cellGet st d c).getD none) }

/-! ## Collision Resolver and `make_dataset_id` (nipa_transform.py:304-312, 412-427) -/

/-- The base key `f"{subject}_{measurement}"` of a catalog entry. -/
def base_key (table_name description : Str) : Str :=
  let sm := extract_semantic_name table_name description
  sm.1 ++ str "_" ++ sm.2

/-- `base_id_counts[k]`: the table names of the catalog entries whose base
key is `k`, in catalog order. -/
def groupNames (catalog : List (Str × Str)) (k : Str) : List Str :=
  (catalog.filter fun e => base_key e.1 e.2 == k).map Prod.fst

/-- The keys of `base_id_counts` in first-insertion order. -/
def catalogKeys (catalog : List (Str × Str)) : List Str :=
  seenOrder (catalog.map fun e => base_key e.1 e.2)

/-- `enumerate(sorted(table_names), 1)` paired with `str(i)`. -/
def numberFrom : Nat → List Str → List (Str × Str)
  | _, [] => []
  | i, n :: ns => (n, natStr i) :: numberFrom (i + 1) ns

/-- The `(table_name, suffix)` assignments generated per base key, in key
order (nipa_transform.py:422-427). -/
def suffixEntries (catalog : List (Str × Str)) : List Str → List (Str × Str)
  | [] => []
  | k :: ks =>
      (if 1 < (groupNames catalog k).length
       then numberFrom 1 (sortStrs (groupNames catalog k)) else [])
      ++ suffixEntries catalog ks

/-- The `suffix_map` dict: the assignments executed in order on an
insertion-ordered dict. -/
def suffix_map (catalog : List (Str × Str)) : List (Str × Str) :=
  (suffixEntries catalog (catalogKeys catalog)).foldl (fun m p => setA m p.1 p.2) []

/-- `suffix_map.get(table_name, "")` (nipa_transform.py:457). -/
def getSuffix (catalog : List (Str × Str)) (tn : Str) : Str :=
  (getA (suffix_map catalog) tn).getD []

/-- `make_dataset_id` (nipa_transform.py:304-312). -/
def make_dataset_id (table_name description frequency suffix : Str) : Str :=
  let sm := extract_semantic_name table_name description
  let base_id := str "bea_" ++ sm.1 ++ str "_" ++ sm.2 ++ str "_" ++ frequency
  if suffix.isEmpty then base_id else base_id ++ str "_" ++ suffix

/-! ## Validator (`test`, nipa_transform.py:357-405) -/

/-- The regex `^\d{4}$`. -/
def isAnnualDate : Str → Bool
  | [a, b, c, d] => a.isDigit && b.isDigit && c.isDigit && d.isDigit
  | _ => false

/-- The regex `^\d{4}-Q[1-4]$`. -/
def isQuarterlyDate : Str → Bool
  | [a, b, c, d, h, q, n] =>
      a.isDigit && b.isDigit && c.isDigit && d.isDigit && h == '-' && q == 'Q' &&
        (n == '1' || n == '2' || n == '3' || n == '4')
  | _ => false

/-- The regex `^\d{4}-\d{2}$`. -/
def isMonthlyDate : Str → Bool
  | [a, b, c, d, h, m1, m2] =>
      a.isDigit && b.isDigit && c.isDigit && d.isDigit && h == '-' &&
        m1.isDigit && m2.isDigit
  | _ => false

/-- The first date failing the format predicate, in column order — the one
whose assertion fires. -/
def firstBadDate (p : Str → Bool) : List Str → Option Str
  | [] => none
  | d :: rest => if p d then firstBadDate p rest else some d

/-- `test` (nipa_transform.py:357-405).  An `assert` failure is the
`Except.error` carrying the assertion's message.

Modelled from the spec: `subsets_utils.validate` is an external collaborator
not in the repository; per §4.6 it checks that the `date` column has no
duplicates and that at least one row exists.  The declared column types and
the non-nullness of `date` are carried by the types of `WideTable` itself. -/
def test (table : WideTable) (frequency : Str) : Except Str Unit :=
  let dates := table.rows.map Prod.fst
  if ¬ dates.Nodup then .error (str "date values must be unique")
  else if table.rows.length < 1 then .error (str "table must have at least 1 row")
  else
    match (if frequency = str "annual" then firstBadDate isAnnualDate dates
           else if frequency = str "quarterly" then firstBadDate isQuarterlyDate dates
           else if frequency = str "monthly" then firstBadDate isMonthlyDate dates
           else none) with
    | some d => .error (str "Invalid " ++ frequency ++ str " date format: " ++ d)
    | none =>
        if ¬ (dates = sortStrs dates) then .error (str "Dates should be sorted ascending")
        else if table.columns.length < 1 then
          .error (str "Table must have at least one data column")
        else .ok ()

/-! ## Orchestrator (`run`, nipa_transform.py:407-469)

`load_nipa_tables` and `load_table_data` are external collaborators; the
catalog and the per-table raw data are therefore inputs of `run`.  The
`upload_data` publish collaborator is modelled by recording the published
`(dataset_id, table)` pairs.  An uncaught exception is `Except.error`. -/

/-- The raw JSON payload for one table: lists under the keys `annual`,
`quarterly`, `monthly` (a missing or falsy payload is modelled as `none`). -/
structure RawData where
  annual : List RawRecord
  quarterly : List RawRecord
  monthly : List RawRecord
deriving DecidableEq

/-- `data.get('annual', []) + data.get('quarterly', []) + data.get('monthly', [])`. -/
def allRecords (d : RawData) : List RawRecord := d.annual ++ d.quarterly ++ d.monthly

/-- Python's `max` on a non-empty list of strings (first argument is the
running maximum). -/
def listMax : Str → List Str → Str
  | a, [] => a
  | a, b :: rest => listMax (if lexLt a b then b else a) rest

/-- The body of the inner frequency loop (nipa_transform.py:444-467) for one
frequency: `ok none` is a normal skip, `ok (some …)` a publish, `error` a
propagating validation failure. -/
def processOne (sfx tn desc : Str) (recs : List RawRecord) (frequency : Str) :
    Except Str (Option (Str × WideTable)) :=
  match transform_table_frequency recs frequency with
  | none => .ok none
  | some table =>
      if table.rows.length = 0 then .ok none
      else
        let dates := table.rows.map Prod.fst
        let maxDate := match dates with | [] => ([] : Str) | d :: rest => listMax d rest
        if lexLt maxDate (str "2024") then .ok none
        else
          let dataset_id := make_dataset_id tn desc frequency sfx
          match test table frequency with
          | .error e => .error e
          | .ok _ => .ok (some (dataset_id, table))

/-- Processing of one catalog entry (nipa_transform.py:432-467): returns
(datasets created, tables skipped, published pairs) or the propagated
validation failure. -/
def processEntry (catalog : List (Str × Str)) (dataOf : Str → Option RawData)
    (entry : Str × Str) : Except Str (Nat × Nat × List (Str × WideTable)) :=
  match dataOf entry.1 with
  | none => .ok (0, 1, [])
  | some data =>
      let recs := allRecords data
      let sfx := getSuffix catalog entry.1
      match processOne sfx entry.1 entry.2 recs (str "annual") with
      | .error e => .error e
      | .ok r1 =>
          match processOne sfx entry.1 entry.2 recs (str "quarterly") with
          | .error e => .error e
          | .ok r2 =>
              match processOne sfx entry.1 entry.2 recs (str "monthly") with
              | .error e => .error e
              | .ok r3 =>
                  let ups := [r1, r2, r3].filterMap id
                  .ok (ups.length, 0, ups)

/-- The catalog loop of `run`, threading the aggregate counts and the
publish log; an error aborts the remaining entries exactly as an uncaught
Python exception aborts the `for` loop. -/
def runFrom (catalog : List (Str × Str)) (dataOf : Str → Option RawData) :
    List (Str × Str) → Nat → Nat → List (Str × WideTable) →
    Except Str (Nat × Nat × List (Str × WideTable))
  | [], created, skipped, ups => .ok (created, skipped, ups)
  | e :: rest, created, skipped, ups =>
      match processEntry catalog dataOf e with
      | .error msg => .error msg
      | .ok (c, s, u) => runFrom catalog dataOf rest (created + c) (skipped + s) (ups ++ u)

/-- `run` (nipa_transform.py:407-469): compute the collision-suffix map from
the full catalog, then process every entry and frequency, reporting
`(datasets_created, datasets_skipped, published pairs)`. -/
def run (catalog : List (Str × Str)) (dataOf : Str → Option RawData) :
    Except Str (Nat × Nat × List (Str × WideTable)) :=
  runFrom catalog dataOf catalog 0 0 []

/-! ## Specification-level description of the pivot output -/

/-- The data columns the pivot produces: first-seen order, one per distinct
slugified name among the surviving records. -/
def pivotColumns (records : List RawRecord) (frequency : Str) : List Str :=
  seenOrder ((records.filter (survivesB frequency)).map recCol)

/-- The dates the pivot produces: the distinct normalized dates of the
surviving records, sorted ascending. -/
def pivotDates (records : List RawRecord) (frequency : Str) : List Str :=
  sortStrs (seenOrder ((records.filter (survivesB frequency)).map (recDate frequency)))

/-- The wide table the pivot produces when at least one record survives:
one row per date in `pivotDates`, one value per column in `pivotColumns`,
each cell holding the last surviving observation (or null). -/
def pivotTable (records : List RawRecord) (frequency : Str) : WideTable :=
  { columns := pivotColumns records frequency
    rows := (pivotDates records frequency).map fun d =>
      (d, (pivotColumns records frequency).map fun c =>
        (lastObs frequency records d c).getD none) }

/-- The three frequencies the Orchestrator iterates over. -/
def freqList : List Str := [str "annual", str "quarterly", str "monthly"]

/-! ## Concrete inputs used by witnesses -/

/-- A catalog description shared by two tables (the spec's own end-to-end
collision scenario). -/
def c2desc : Str := str "Table 1.1.5. Gross Domestic Product (A) (Q)"

/-- A concrete catalog with a collision (`T1`, `T3` share a base key) and a
collision-free entry (`TX`). -/
def c2catalog : List (Str × Str) :=
  [(str "T3", c2desc), (str "T1", c2desc), (str "TX", str "junk")]


/-- Concrete records: two annual survivors (one with a null parse), one
quarterly record that the annual pivot filters out. -/
def c3recs : List RawRecord :=
  [⟨str "2024", str "Alpha Beta", some (str "1")⟩,
   ⟨str "2023", str "Gamma", none⟩,
   ⟨str "2024Q1", str "Alpha Beta", some (str "2")⟩]

/-- Concrete records: two surviving records on the same (date, column) cell
(`"A"` and `"A!"` both slugify to `"a"`). -/
def c9recs : List RawRecord :=
  [⟨str "2024Q1", str "A", some (str "1")⟩,
   ⟨str "2024Q1", str "A!", some (str "2")⟩]

/-- Concrete record whose value is the sentinel `"n/a"` (parses to null). -/
def c10recs : List RawRecord := [⟨str "2024", str "Foo", some (str "n/a")⟩]

/-- A concrete catalog whose first entry yields an annual table with the
unparseable date `"garbage"` (which passes the recency filter but fails the
Validator) and whose second entry is well-formed. -/
def c1Catalog : List (Str × Str) := [(str "TBAD", str "junk"), (str "TGOOD", str "junk2")]

/-- Raw data for `c1Catalog`. -/
def c1DataOf : Str → Option RawData := fun tn =>
  if tn = str "TBAD" then some ⟨[⟨str "garbage", str "x", some (str "1")⟩], [], []⟩
  else if tn = str "TGOOD" then some ⟨[⟨str "2024", str "y", some (str "2")⟩], [], []⟩
  else none

/-! ## Lemmas and claim theorems -/

theorem lexLe_refl (a : Str) : lexLe a a = true := by
  induction a with
  | nil => rfl
  | cons c cs ih => simp [lexLe, ih]

theorem lexLe_total (a b : Str) : lexLe a b = true ∨ lexLe b a = true := by
  induction a generalizing b with
  | nil => exact Or.inl rfl
  | cons c cs ih =>
    cases b with
    | nil => exact Or.inr rfl
    | cons d ds =>
      rcases lt_trichotomy c d with h | h | h
      · left; simp [lexLe, h]
      · subst h
        rcases ih ds with h2 | h2
        · left; simp [lexLe, h2]
        · right; simp [lexLe, h2]
      · right; simp [lexLe, h]

theorem lexLe_antisymm {a b : Str} (h1 : lexLe a b = true) (h2 : lexLe b a = true) :
    a = b := by
  induction a generalizing b with
  | nil =>
    cases b with
    | nil => rfl
    | cons d ds => simp [lexLe] at h2
  | cons c cs ih =>
    cases b with
    | nil => simp [lexLe] at h1
    | cons d ds =>
      rcases lt_trichotomy c d with h | h | h
      · simp [lexLe, h, not_lt.mpr (le_of_lt h), ne_of_gt h] at h2
      · subst h
        simp only [lexLe, lt_irrefl, if_false, if_pos rfl, if_neg (lt_irrefl c)] at h1 h2
        exact congrArg₂ List.cons rfl (ih h1 h2)
      · simp [lexLe, not_lt.mpr (le_of_lt h), ne_of_lt h |>.symm, ne_of_gt h] at h1

theorem lexLe_trans {a b c : Str} (h1 : lexLe a b = true) (h2 : lexLe b c = true) :
    lexLe a c = true := by
  induction a generalizing b c with
  | nil => rfl
  | cons x xs ih =>
    cases b with
    | nil => simp [lexLe] at h1
    | cons y ys =>
      cases c with
      | nil => simp [lexLe] at h2
      | cons z zs =>
        rcases lt_trichotomy x y with hxy | hxy | hxy
        · rcases lt_trichotomy y z with hyz | hyz | hyz
          · simp [lexLe, lt_trans hxy hyz]
          · subst hyz; simp [lexLe, hxy]
          · simp [lexLe, not_lt.mpr (le_of_lt hyz), ne_of_gt hyz] at h2
        · subst hxy
          rcases lt_trichotomy x z with hyz | hyz | hyz
          · simp [lexLe, hyz]
          · subst hyz
            simp only [lexLe, lt_irrefl, if_false, if_pos rfl, if_neg (lt_irrefl x)] at h1 h2 ⊢
            exact ih h1 h2
          · simp [lexLe, not_lt.mpr (le_of_lt hyz), ne_of_gt hyz] at h2
        · simp [lexLe, not_lt.mpr (le_of_lt hxy), ne_of_gt hxy] at h1

theorem sortStrs_sorted (l : List Str) : List.Sorted leStr (sortStrs l) := by
  haveI : IsTotal Str leStr := ⟨lexLe_total⟩
  haveI : IsTrans Str leStr := ⟨fun _ _ _ => lexLe_trans⟩
  exact List.sorted_insertionSort leStr l

theorem sortStrs_perm (l : List Str) : (sortStrs l).Perm l :=
  List.perm_insertionSort leStr l

theorem mem_foldl_dedupStep (xs : List α) (acc : List α) (y : α) :
    y ∈ xs.foldl dedupStep acc ↔ y ∈ acc ∨ y ∈ xs := by
  induction xs generalizing acc with
  | nil => simp
  | cons x xs ih =>
    by_cases hx : x ∈ acc
    · simp only [List.foldl_cons, dedupStep, if_pos hx, ih, List.mem_cons]
      constructor
      · rintro (h | h)
        · exact Or.inl h
        · exact Or.inr (Or.inr h)
      · rintro (h | rfl | h)
        · exact Or.inl h
        · exact Or.inl hx
        · exact Or.inr h
    · simp only [List.foldl_cons, dedupStep, if_neg hx, ih, List.mem_append,
        List.mem_singleton, List.mem_cons]
      tauto

theorem nodup_foldl_dedupStep (xs : List α) (acc : List α) (h : acc.Nodup) :
    (xs.foldl dedupStep acc).Nodup := by
  induction xs generalizing acc with
  | nil => exact h
  | cons x xs ih =>
    by_cases hx : x ∈ acc
    · simpa [dedupStep, hx] using ih acc h
    · have := ih (acc ++ [x]) (by simpa [List.nodup_append, h] using hx)
      simpa [dedupStep, hx] using this

theorem mem_seenOrder (xs : List α) (y : α) : y ∈ seenOrder xs ↔ y ∈ xs := by
  simp [seenOrder, mem_foldl_dedupStep]

theorem nodup_seenOrder (xs : List α) : (seenOrder xs).Nodup :=
  nodup_foldl_dedupStep xs [] List.nodup_nil

theorem seenOrder_eq_nil_iff (xs : List α) : seenOrder xs = [] ↔ xs = [] := by
  constructor
  · intro h
    cases xs with
    | nil => rfl
    | cons x xs =>
      have : x ∈ seenOrder (x :: xs) := (mem_seenOrder _ _).mpr (List.mem_cons_self x xs)
      rw [h] at this
      exact absurd this (List.not_mem_nil x)
  · rintro rfl; rfl

theorem getA_setA_self (m : List (α × β)) (k : α) (v : β) :
    getA (setA m k v) k = some v := by
  induction m with
  | nil => simp [setA, getA]
  | cons p rest ih =>
    obtain ⟨k', v'⟩ := p
    by_cases h : k = k'
    · simp [setA, getA, h]
    · simp [setA, getA, h, ih]

theorem getA_setA_ne (m : List (α × β)) (k q : α) (v : β) (h : q ≠ k) :
    getA (setA m k v) q = getA m q := by
  induction m with
  | nil => simp [setA, getA, h]
  | cons p rest ih =>
    obtain ⟨k', v'⟩ := p
    by_cases hk : k = k'
    · subst hk
      simp [setA, getA, h]
    · by_cases hq : q = k'
      · simp [setA, getA, hk, hq]
      · simp [setA, getA, hk, hq, ih]

theorem keysA_setA (m : List (α × β)) (k : α) (v : β) :
    keysA (setA m k v) = dedupStep (keysA m) k := by
  induction m with
  | nil => simp [setA, keysA, dedupStep]
  | cons p rest ih =>
    obtain ⟨k', v'⟩ := p
    by_cases h : k = k'
    · simp [setA, keysA, dedupStep, h]
    · simp only [setA, if_neg h, keysA, List.map_cons]
      show k' :: keysA (setA rest k v) = dedupStep (k' :: keysA rest) k
      rw [ih]
      unfold dedupStep
      by_cases hm : k ∈ keysA rest
      · simp [hm, h]
      · simp [hm, h]

theorem getA_eq_none_iff (m : List (α × β)) (k : α) :
    getA m k = none ↔ k ∉ keysA m := by
  induction m with
  | nil => simp [getA, keysA]
  | cons p rest ih =>
    obtain ⟨k', v'⟩ := p
    by_cases h : k = k'
    · simp [getA, keysA, h]
    · simp [getA, keysA, h, ih]

theorem digitChar_isDigit {d : Nat} (h : d < 10) : (digitChar d).isDigit = true := by
  interval_cases d <;> decide

theorem digitChar_injOn {d e : Nat} (hd : d < 10) (he : e < 10)
    (h : digitChar d = digitChar e) : d = e := by
  interval_cases d <;> interval_cases e <;> simp_all [digitChar]

theorem natDigitsAux_eq_digits :
    ∀ fuel n : Nat, n ≤ fuel → natDigitsAux fuel n = Nat.digits 10 n := by
  intro fuel
  induction fuel with
  | zero =>
    intro n hn
    interval_cases n
    simp [natDigitsAux]
  | succ f ih =>
    intro n hn
    cases n with
    | zero => simp [natDigitsAux]
    | succ k =>
      have hdiv : (k + 1) / 10 ≤ f := by
        have h1 : (k + 1) / 10 < k + 1 := Nat.div_lt_self (Nat.succ_pos k) (by norm_num)
        omega
      rw [natDigitsAux, ih _ hdiv, Nat.digits_def' (by norm_num : 1 < 10) (Nat.succ_pos k)]

theorem natStr_eq (n : Nat) :
    natStr n = if n = 0 then ['0'] else ((Nat.digits 10 n).reverse).map digitChar := by
  unfold natStr
  rw [natDigitsAux_eq_digits n n le_rfl]

theorem natStr_ne_nil (n : Nat) : natStr n ≠ [] := by
  rw [natStr_eq]
  by_cases h : n = 0
  · simp [h]
  · simp only [h, if_false, ne_eq, List.map_eq_nil_iff, List.reverse_eq_nil_iff]
    exact Nat.digits_ne_nil_iff_ne_zero.mpr h

theorem natStr_isDigit (n : Nat) : ∀ c ∈ natStr n, c.isDigit = true := by
  intro c hc
  rw [natStr_eq] at hc
  by_cases h : n = 0
  · simp [h] at hc
    simp [hc]
  · simp only [h, if_false, List.mem_map, List.mem_reverse] at hc
    obtain ⟨d, hd, rfl⟩ := hc
    exact digitChar_isDigit (Nat.digits_lt_base (by norm_num) hd)

theorem natStr_injective {m n : Nat} (h : natStr m = natStr n) : m = n := by
  have key : ∀ l1 l2 : List Nat, (∀ d ∈ l1, d < 10) → (∀ d ∈ l2, d < 10) →
      l1.map digitChar = l2.map digitChar → l1 = l2 := by
    intro l1
    induction l1 with
    | nil => intro l2 _ _ hm; cases l2 <;> simp_all
    | cons d l1 ih =>
      intro l2 h1 h2 hm
      cases l2 with
      | nil => simp at hm
      | cons e l2 =>
        simp only [List.map_cons, List.cons.injEq] at hm
        have hde : d = e :=
          digitChar_injOn (h1 d (List.mem_cons_self d l1)) (h2 e (List.mem_cons_self e l2)) hm.1
        have : l1 = l2 := ih l2 (fun x hx => h1 x (List.mem_cons_of_mem _ hx))
          (fun x hx => h2 x (List.mem_cons_of_mem _ hx)) hm.2
        rw [hde, this]
  rw [natStr_eq, natStr_eq] at h
  by_cases hm : m = 0 <;> by_cases hn : n = 0
  · rw [hm, hn]
  · exfalso
    simp only [hm, if_pos rfl, hn, if_false] at h
    have hd : Nat.digits 10 n = [0] := by
      have := key [0] ((Nat.digits 10 n).reverse) (by norm_num)
        (fun d hd => Nat.digits_lt_base (by norm_num) (List.mem_reverse.mp hd)) (by simpa using h)
      simpa [List.reverse_eq_iff] using this.symm
    have := Nat.ofDigits_digits 10 n
    rw [hd] at this
    simp [Nat.ofDigits] at this
    exact hn this.symm
  · exfalso
    simp only [hn, if_pos rfl, hm, if_false] at h
    have hd : Nat.digits 10 m = [0] := by
      have := key [0] ((Nat.digits 10 m).reverse) (by norm_num)
        (fun d hd => Nat.digits_lt_base (by norm_num) (List.mem_reverse.mp hd)) (by simpa using h.symm)
      simpa [List.reverse_eq_iff] using this.symm
    have := Nat.ofDigits_digits 10 m
    rw [hd] at this
    simp [Nat.ofDigits] at this
    exact hm this.symm
  · simp only [hm, hn, if_false] at h
    have hdig : (Nat.digits 10 m).reverse = (Nat.digits 10 n).reverse :=
      key _ _ (fun d hd => Nat.digits_lt_base (by norm_num) (List.mem_reverse.mp hd))
        (fun d hd => Nat.digits_lt_base (by norm_num) (List.mem_reverse.mp hd)) h
    have : Nat.digits 10 m = Nat.digits 10 n := by
      simpa using congrArg List.reverse hdig
    calc m = Nat.ofDigits 10 (Nat.digits 10 m) := (Nat.ofDigits_digits 10 m).symm
      _ = Nat.ofDigits 10 (Nat.digits 10 n) := by rw [this]
      _ = n := Nat.ofDigits_digits 10 n

theorem pyStrip_of_all_space {s : Str} (h : ∀ c ∈ s, pyIsSpace c = true) :
    pyStrip s = [] := by
  have h1 : s.dropWhile pyIsSpace = [] := List.dropWhile_eq_nil_iff.mpr h
  simp [pyStrip, h1]

theorem firstBadDate_none {p : Str → Bool} {l : List Str}
    (h : ∀ d ∈ l, p d = true) : firstBadDate p l = none := by
  induction l with
  | nil => rfl
  | cons d rest ih =>
    rw [firstBadDate, if_pos (h d (List.mem_cons_self d rest))]
    exact ih fun x hx => h x (List.mem_cons_of_mem d hx)

/-! ### Claim C5 -/

/-- Claim C5 counterexample: the claim states that the Validator `test`
rejects a monthly wide table whose `date` column contains `"2023-13"`, but
`test` accepts this concrete table (monthly pattern `^\d{4}-\d{2}$` matches
`"2023-13"` and even `"2023-00"`; no month-range check exists). -/
theorem claim5_counterexample :
    test ⟨[str "pce"], [(str "2023-00", [none]), (str "2023-13", [some 0])]⟩
      (str "monthly") = Except.ok () := by decide

/-- Claim C5 (amended): for monthly frequency the Validator checks only the
shape `\d{4}-\d{2}` of each date (plus uniqueness, sortedness, at least one
row and one data column); it accepts any table meeting those checks, so a
month component such as `13` — outside `01..12` — is not rejected. -/
theorem claim5_monthly_range_unchecked (t : WideTable)
    (h1 : (t.rows.map Prod.fst).Nodup)
    (h2 : t.rows ≠ [])
    (h3 : ∀ d ∈ t.rows.map Prod.fst, isMonthlyDate d = true)
    (h4 : List.Sorted leStr (t.rows.map Prod.fst))
    (h5 : t.columns ≠ []) :
    test t (str "monthly") = Except.ok () := by
  have hbad : firstBadDate isMonthlyDate (t.rows.map Prod.fst) = none := firstBadDate_none h3
  have hsort : sortStrs (t.rows.map Prod.fst) = t.rows.map Prod.fst :=
    List.Sorted.insertionSort_eq h4
  have hlen : ¬ t.rows.length < 1 := by
    simp [Nat.lt_one_iff, List.length_eq_zero, h2]
  have hcols : ¬ t.columns.length < 1 := by
    simp [Nat.lt_one_iff, List.length_eq_zero, h5]
  have d1 : ¬ ((str "monthly" : Str) = str "annual") := by decide
  have d2 : ¬ ((str "monthly" : Str) = str "quarterly") := by decide
  have d3 : ((str "monthly" : Str) = str "monthly") := rfl
  simp [test, h1, hlen, hcols, d1, d2, d3, hbad, hsort]

/-- Claim C5 witness: the amended theorem applied to a concrete monthly
table whose date column contains `"2023-13"` — the validator accepts it. -/
theorem claim5_witness :
    test ⟨[str "value"], [(str "2023-13", [some (1 : ℚ)])]⟩ (str "monthly") =
      Except.ok () :=
  claim5_monthly_range_unchecked ⟨[str "value"], [(str "2023-13", [some (1 : ℚ)])]⟩
    (by decide) (by decide) (by decide) (by decide) (by decide)

/-! ### Claim C6 -/

/-- Claim C6: `parse_value` is total and never raises; null/empty input, a
whitespace-only string and the sentinel tokens `"n/a"`, `"NA"`, `"(NA)"`,
`"(NM)"`, `"..."`, `"----"`, `"n.a."` all map to `null`; thousands
separators are stripped before the numeric parse (`"1,234.5"` yields
`1234.5`); and a string whose comma-stripped form fails the numeric parse
yields `null` rather than an error. -/
theorem claim6_parse_value :
    parse_value none = none ∧
    (∀ s : Str, (∀ c ∈ s, pyIsSpace c = true) → parse_value (some s) = none) ∧
    parse_value (some (str "n/a")) = none ∧
    parse_value (some (str "NA")) = none ∧
    parse_value (some (str "(NA)")) = none ∧
    parse_value (some (str "(NM)")) = none ∧
    parse_value (some (str "...")) = none ∧
    parse_value (some (str "----")) = none ∧
    parse_value (some (str "n.a.")) = none ∧
    parse_value (some (str "1,234.5")) = some (1234.5 : ℚ) ∧
    (∀ s : Str, ∀ q : ℚ,
      (pyFloat? (pyStrip (s.filter fun c => !(c == ','))) = none →
        parse_value (some s) = none) ∧
      (pyFloat? (pyStrip (s.filter fun c => !(c == ','))) = some q →
        parse_value (some s) = some q)) := by
  refine ⟨rfl, ?_, by decide, by decide, by decide, by decide, by decide, by decide,
    by decide, ?_, ?_⟩
  · intro s h
    have hc : pyStrip (s.filter fun c => !(c == ',')) = [] :=
      pyStrip_of_all_space fun c hc => h c (List.mem_of_mem_filter hc)
    simp [parse_value, hc]
  · have h1 : parse_value (some (str "1,234.5")) = some (mkRat 2469 2) := by decide
    have h2 : (mkRat 2469 2 : ℚ) = 1234.5 := by
      rw [Rat.mkRat_eq_div]; norm_num
    rw [h1, h2]
  · intro s q
    constructor
    · intro hn
      by_cases hif : pyStrip (s.filter fun c => !(c == ',')) = [] ∨
          pyStrip (s.filter fun c => !(c == ',')) = str "..." ∨
          pyStrip (s.filter fun c => !(c == ',')) = str "----" ∨
          pyStrip (s.filter fun c => !(c == ',')) = str "n.a."
      · simp only [parse_value, if_pos hif]
      · simp only [parse_value, if_neg hif]
        exact hn
    · intro hs
      have hif : ¬ (pyStrip (s.filter fun c => !(c == ',')) = [] ∨
          pyStrip (s.filter fun c => !(c == ',')) = str "..." ∨
          pyStrip (s.filter fun c => !(c == ',')) = str "----" ∨
          pyStrip (s.filter fun c => !(c == ',')) = str "n.a.") := by
        rintro (h | h | h | h)
        · rw [h, (by decide : pyFloat? ([] : Str) = none)] at hs
          exact Option.noConfusion hs
        · rw [h, (by decide : pyFloat? (str "...") = none)] at hs
          exact Option.noConfusion hs
        · rw [h, (by decide : pyFloat? (str "----") = none)] at hs
          exact Option.noConfusion hs
        · rw [h, (by decide : pyFloat? (str "n.a.") = none)] at hs
          exact Option.noConfusion hs
      simp only [parse_value, if_neg hif]
      exact hs

/-- Claim C6 witness: the sentinel/whitespace and generic branches of the
claim applied at concrete inputs. -/
theorem claim6_witness :
    parse_value (some (str "   ")) = none ∧ parse_value (some (str "abc")) = none :=
  ⟨claim6_parse_value.2.1 (str "   ") (by decide),
   (claim6_parse_value.2.2.2.2.2.2.2.2.2.2 (str "abc") 0).1 (by decide)⟩

/-! ### Claim C7 -/

/-- Claim C7 counterexample: the claim states that `"202303"`-style inputs
rewrite to `"2023-03"`, but `"202303"` contains no `M`, so it does not match
`^\d{4}M\d{2}$`: it classifies as annual and `normalize_date` returns it
unchanged. -/
theorem claim7_counterexample :
    detect_frequency (str "202303") = str "annual" ∧
    normalize_date (str "202303") (str "monthly") = str "202303" ∧
    ¬ normalize_date (str "202303") (str "monthly") = str "2023-03" := by decide

/-- Claim C7 (amended): for every token matching `^\d{4}Q[1-4]$`,
`detect_frequency` returns quarterly and `normalize_date` rewrites `YYYYQn`
to `YYYY-Qn`; for every token matching `^\d{4}M\d{2}$` (such as `"2023M03"`,
not the bare `"202303"`), it returns monthly and rewrites `YYYYMmm` to
`YYYY-mm`; every other token classifies as annual; and a token that does not
match the pattern of its target frequency is returned unchanged without
raising. -/
theorem claim7_period_normalizer :
    (∀ p : Str, qToken p = true →
      detect_frequency p = str "quarterly" ∧
      normalize_date p (str "quarterly") = p.take 4 ++ str "-Q" ++ p.drop 5) ∧
    (∀ p : Str, mToken p = true →
      detect_frequency p = str "monthly" ∧
      normalize_date p (str "monthly") = p.take 4 ++ str "-" ++ p.drop 5) ∧
    normalize_date (str "2023M03") (str "monthly") = str "2023-03" ∧
    (∀ p : Str, qToken p = false → mToken p = false →
      detect_frequency p = str "annual") ∧
    (∀ p f : Str, (f = str "quarterly" → qToken p = false) →
      (f = str "monthly" → mToken p = false) → normalize_date p f = p) := by
  refine ⟨?_, ?_, by decide, ?_, ?_⟩
  · intro p h
    match p, h with
    | [y1, y2, y3, y4, q, n], h =>
      refine ⟨by simp [detect_frequency, h], ?_⟩
      have hb : (y1.isDigit && y2.isDigit && y3.isDigit && y4.isDigit && (q == 'Q') &&
          (n == '1' || n == '2' || n == '3' || n == '4')) = true := h
      have e1 : normalize_date [y1, y2, y3, y4, q, n] (str "quarterly") =
          (if y1.isDigit && y2.isDigit && y3.isDigit && y4.isDigit && (q == 'Q') &&
              (n == '1' || n == '2' || n == '3' || n == '4')
           then [y1, y2, y3, y4, '-', 'Q', n] else [y1, y2, y3, y4, q, n]) := rfl
      rw [e1, if_pos hb]
      rfl
  · intro p h
    match p, h with
    | [y1, y2, y3, y4, m, d1, d2], h =>
      have hq : qToken [y1, y2, y3, y4, m, d1, d2] = false := rfl
      refine ⟨by simp [detect_frequency, hq, h], ?_⟩
      have hb : (y1.isDigit && y2.isDigit && y3.isDigit && y4.isDigit && (m == 'M') &&
          d1.isDigit && d2.isDigit) = true := h
      have e1 : normalize_date [y1, y2, y3, y4, m, d1, d2] (str "monthly") =
          (if y1.isDigit && y2.isDigit && y3.isDigit && y4.isDigit && (m == 'M') &&
              d1.isDigit && d2.isDigit
           then [y1, y2, y3, y4, '-', d1, d2] else [y1, y2, y3, y4, m, d1, d2]) := rfl
      rw [e1, if_pos hb]
      rfl
  · intro p h1 h2
    simp [detect_frequency, h1, h2]
  · intro p f hq hm
    by_cases hf1 : f = str "quarterly"
    · subst hf1
      have h1 : qToken p = false := hq rfl
      match p, h1 with
      | [], _ => rfl
      | [a], _ => rfl
      | [a, b], _ => rfl
      | [a, b, c], _ => rfl
      | [a, b, c, d], _ => rfl
      | [a, b, c, d, e], _ => rfl
      | [y1, y2, y3, y4, q, n], h1 =>
        have hb : (y1.isDigit && y2.isDigit && y3.isDigit && y4.isDigit && (q == 'Q') &&
            (n == '1' || n == '2' || n == '3' || n == '4')) = false := h1
        have e1 : normalize_date [y1, y2, y3, y4, q, n] (str "quarterly") =
            (if y1.isDigit && y2.isDigit && y3.isDigit && y4.isDigit && (q == 'Q') &&
                (n == '1' || n == '2' || n == '3' || n == '4')
             then [y1, y2, y3, y4, '-', 'Q', n] else [y1, y2, y3, y4, q, n]) := rfl
        rw [e1, if_neg (by simp [hb])]
      | a :: b :: c :: d :: e :: g :: h :: t, _ => rfl
    · by_cases hf2 : f = str "monthly"
      · subst hf2
        have h2 : mToken p = false := hm rfl
        match p, h2 with
        | [], _ => rfl
        | [a], _ => rfl
        | [a, b], _ => rfl
        | [a, b, c], _ => rfl
        | [a, b, c, d], _ => rfl
        | [a, b, c, d, e], _ => rfl
        | [a, b, c, d, e, g], _ => rfl
        | [y1, y2, y3, y4, m, d1, d2], h2 =>
          have hb : (y1.isDigit && y2.isDigit && y3.isDigit && y4.isDigit && (m == 'M') &&
              d1.isDigit && d2.isDigit) = false := h2
          have e1 : normalize_date [y1, y2, y3, y4, m, d1, d2] (str "monthly") =
              (if y1.isDigit && y2.isDigit && y3.isDigit && y4.isDigit && (m == 'M') &&
                  d1.isDigit && d2.isDigit
               then [y1, y2, y3, y4, '-', d1, d2] else [y1, y2, y3, y4, m, d1, d2]) := rfl
          rw [e1, if_neg (by simp [hb])]
        | a :: b :: c :: d :: e :: g :: h :: i :: t, _ => rfl
      · unfold normalize_date
        rw [if_neg hf1, if_neg hf2]

/-- Claim C7 witness: the amended theorem applied to the concrete tokens
`"2023Q2"`, `"2023M03"`, `"2023"` and an unparseable token. -/
theorem claim7_witness :
    detect_frequency (str "2023Q2") = str "quarterly" ∧
    normalize_date (str "2023Q2") (str "quarterly") =
      (str "2023Q2").take 4 ++ str "-Q" ++ (str "2023Q2").drop 5 ∧
    detect_frequency (str "2023M03") = str "monthly" ∧
    detect_frequency (str "2023") = str "annual" ∧
    normalize_date (str "garbage") (str "quarterly") = str "garbage" :=
  ⟨(claim7_period_normalizer.1 (str "2023Q2") (by decide)).1,
   (claim7_period_normalizer.1 (str "2023Q2") (by decide)).2,
   (claim7_period_normalizer.2.1 (str "2023M03") (by decide)).1,
   claim7_period_normalizer.2.2.2.1 (str "2023") (by decide) (by decide),
   claim7_period_normalizer.2.2.2.2 (str "garbage") (str "quarterly")
     (fun _ => by decide) (fun h => absurd h (by decide))⟩

/-! ### Claim C8 -/

/-- Claim C8: `extract_semantic_name` is pure, total and deterministic —
equal inputs give equal outputs (totality is witnessed by the function being
definable in Lean) — and whenever the description does not match the
`Table <section>.<subsection>…` pattern at all (`search` finds no match), it
returns exactly `(table_id lowercased, "data")`. -/
theorem claim8_extract_semantic_name :
    (∀ tn d1 d2 : Str, d1 = d2 →
      extract_semantic_name tn d1 = extract_semantic_name tn d2) ∧
    (∀ tn desc : Str, search desc = none →
      extract_semantic_name tn desc = (lowerStr tn, str "data")) := by
  constructor
  · intro tn d1 d2 h
    rw [h]
  · intro tn desc h
    unfold extract_semantic_name
    rw [h]

/-- Claim C8 witness: the fallback branch evaluated at a concrete
non-matching description. -/
theorem claim8_witness :
    extract_semantic_name (str "T10105") (str "no table pattern here") =
      (str "t10105", str "data") := by
  have h := claim8_extract_semantic_name.2 (str "T10105") (str "no table pattern here")
    (by decide)
  rw [h]
  decide

/-! ### Pivot fold lemmas (shared by Claims C3, C9, C10) -/

theorem getLast?_cons' (r : RawRecord) (l : List RawRecord) :
    (r :: l).getLast? = match l.getLast? with
      | some x => some x
      | none => some r := by
  cases l with
  | nil => rfl
  | cons x xs =>
    rw [List.getLast?_cons_cons]
    cases h : (x :: xs).getLast? with
    | some y => rfl
    | none =>
      rw [List.getLast?_eq_none_iff] at h
      exact List.noConfusion h

theorem foldl_columnOrder (frequency : Str) (recs : List RawRecord) (st : PivotState) :
    (recs.foldl (stepRecord frequency) st).columnOrder =
      ((recs.filter (survivesB frequency)).map recCol).foldl dedupStep st.columnOrder := by
  induction recs generalizing st with
  | nil => rfl
  | cons r rs ih =>
    rw [List.foldl_cons, ih]
    by_cases h : survivesB frequency r = true
    · rw [List.filter_cons_of_pos h, List.map_cons, List.foldl_cons]
      have hcol : (stepRecord frequency st r).columnOrder =
          dedupStep st.columnOrder (recCol r) := by
        rw [stepRecord, if_pos h]
      rw [hcol]
    · rw [List.filter_cons_of_neg h]
      have hcol : (stepRecord frequency st r).columnOrder = st.columnOrder := by
        rw [stepRecord, if_neg h]
      rw [hcol]

theorem foldl_keys (frequency : Str) (recs : List RawRecord) (st : PivotState) :
    keysA (recs.foldl (stepRecord frequency) st).dateRows =
      ((recs.filter (survivesB frequency)).map (recDate frequency)).foldl dedupStep
        (keysA st.dateRows) := by
  induction recs generalizing st with
  | nil => rfl
  | cons r rs ih =>
    rw [List.foldl_cons, ih]
    by_cases h : survivesB frequency r = true
    · rw [List.filter_cons_of_pos h, List.map_cons, List.foldl_cons]
      have hk : keysA (stepRecord frequency st r).dateRows =
          dedupStep (keysA st.dateRows) (recDate frequency r) := by
        rw [stepRecord, if_pos h]
        exact keysA_setA _ _ _
      rw [hk]
    · rw [List.filter_cons_of_neg h]
      have hk : keysA (stepRecord frequency st r).dateRows = keysA st.dateRows := by
        rw [stepRecord, if_neg h]
      rw [hk]

theorem cellGet_step_self (frequency : Str) (st : PivotState) (r : RawRecord)
    (h : survivesB frequency r = true) :
    cellGet (stepRecord frequency st r) (recDate frequency r) (recCol r) =
      some (parse_value r.dataValue) := by
  rw [stepRecord, if_pos h]
  unfold cellGet
  simp only
  rw [getA_setA_self, Option.getD_some, getA_setA_self]

theorem cellGet_step_other (frequency : Str) (st : PivotState) (r : RawRecord)
    (d c : Str)
    (h : ¬(survivesB frequency r = true ∧ recDate frequency r = d ∧ recCol r = c)) :
    cellGet (stepRecord frequency st r) d c = cellGet st d c := by
  by_cases hs : survivesB frequency r = true
  · rw [stepRecord, if_pos hs]
    unfold cellGet
    simp only
    by_cases hd : recDate frequency r = d
    · have hc : ¬ recCol r = c := fun hc => h ⟨hs, hd, hc⟩
      rw [← hd, getA_setA_self, Option.getD_some, getA_setA_ne _ _ _ _ fun hh => hc hh.symm,
        hd]
    · rw [getA_setA_ne _ _ _ _ fun hh => hd hh.symm]
  · rw [stepRecord, if_neg hs]

theorem foldl_cell (frequency : Str) (recs : List RawRecord) (st : PivotState)
    (d c : Str) :
    cellGet (recs.foldl (stepRecord frequency) st) d c =
      match lastObs frequency recs d c with
      | some v => some v
      | none => cellGet st d c := by
  induction recs generalizing st with
  | nil => rfl
  | cons r rs ih =>
    rw [List.foldl_cons, ih]
    by_cases hm : (survivesB frequency r && (recDate frequency r == d) &&
        (recCol r == c)) = true
    · have hs : survivesB frequency r = true := by
        simp only [Bool.and_eq_true, beq_iff_eq] at hm
        exact hm.1.1
      have hd : recDate frequency r = d := by
        simp only [Bool.and_eq_true, beq_iff_eq] at hm
        exact hm.1.2
      have hc : recCol r = c := by
        simp only [Bool.and_eq_true, beq_iff_eq] at hm
        exact hm.2
      have hcell : cellGet (stepRecord frequency st r) d c =
          some (parse_value r.dataValue) := by
        rw [← hd, ← hc]
        exact cellGet_step_self frequency st r hs
      have hlast : lastObs frequency (r :: rs) d c =
          match lastObs frequency rs d c with
          | some v => some v
          | none => some (parse_value r.dataValue) := by
        unfold lastObs
        rw [@List.filter_cons_of_pos _
          (fun x => survivesB frequency x && (recDate frequency x == d) && (recCol x == c))
          r rs hm, getLast?_cons']
        cases hg : (rs.filter fun x => survivesB frequency x &&
            (recDate frequency x == d) && (recCol x == c)).getLast? with
        | some y => simp [hg]
        | none => simp [hg]
      rw [hlast]
      cases hr : lastObs frequency rs d c with
      | some v => rfl
      | none => simpa using hcell
    · have hlast : lastObs frequency (r :: rs) d c = lastObs frequency rs d c := by
        unfold lastObs
        rw [@List.filter_cons_of_neg _
          (fun x => survivesB frequency x && (recDate frequency x == d) && (recCol x == c))
          r rs hm]
      have hcell : cellGet (stepRecord frequency st r) d c = cellGet st d c := by
        refine cellGet_step_other frequency st r d c ?_
        rintro ⟨hs, hd, hc⟩
        exact hm (by simp [hs, hd, hc])
      rw [hlast, hcell]

/-- The final pivot state's cell content is exactly the last surviving
observation for that cell. -/
theorem cellGet_final (frequency : Str) (records : List RawRecord) (d c : Str) :
    cellGet (records.foldl (stepRecord frequency) ⟨[], []⟩) d c =
      lastObs frequency records d c := by
  rw [foldl_cell]
  cases h : lastObs frequency records d c with
  | some v => rfl
  | none => rfl

/-- Characterization of a produced table: `transform_table_frequency` returns
`none` exactly when no record survives, and otherwise produces exactly
`pivotTable records frequency`. -/
theorem transform_char (records : List RawRecord) (frequency : Str) :
    (records.filter (survivesB frequency) = [] →
      transform_table_frequency records frequency = none) ∧
    (records.filter (survivesB frequency) ≠ [] →
      transform_table_frequency records frequency =
        some (pivotTable records frequency)) := by
  have hkeys : keysA (records.foldl (stepRecord frequency) ⟨[], []⟩).dateRows =
      seenOrder ((records.filter (survivesB frequency)).map (recDate frequency)) := by
    rw [foldl_keys]
    rfl
  have hcols : (records.foldl (stepRecord frequency) ⟨[], []⟩).columnOrder =
      seenOrder ((records.filter (survivesB frequency)).map recCol) := by
    rw [foldl_columnOrder]
    rfl
  constructor
  · intro h
    by_cases hrec : records = []
    · rw [transform_table_frequency, if_pos hrec]
    · rw [transform_table_frequency, if_neg hrec]
      have hempty : (records.foldl (stepRecord frequency) ⟨[], []⟩).dateRows = [] := by
        have h1 : keysA (records.foldl (stepRecord frequency) ⟨[], []⟩).dateRows = [] := by
          rw [hkeys, h]
          rfl
        cases hdr : (records.foldl (stepRecord frequency) ⟨[], []⟩).dateRows with
        | nil => rfl
        | cons p l =>
          rw [hdr] at h1
          exact List.noConfusion h1
      rw [if_pos hempty]
  · intro h
    have hrec : records ≠ [] := by
      intro hh
      rw [hh] at h
      exact h rfl
    have hne : (records.foldl (stepRecord frequency) ⟨[], []⟩).dateRows ≠ [] := by
      intro hh
      have h1 : keysA (records.foldl (stepRecord frequency) ⟨[], []⟩).dateRows = [] := by
        rw [hh]
        rfl
      rw [hkeys] at h1
      rw [seenOrder_eq_nil_iff, List.map_eq_nil_iff] at h1
      exact h h1
    rw [transform_table_frequency, if_neg hrec, if_neg hne]
    unfold pivotTable pivotColumns pivotDates
    congr 1
    rw [WideTable.mk.injEq]
    refine ⟨hcols, ?_⟩
    rw [hkeys, hcols]
    refine List.map_congr_left fun d _ => ?_
    refine congrArg _ (List.map_congr_left fun c _ => ?_)
    rw [cellGet_final]

theorem pivotTable_columns (records : List RawRecord) (frequency : Str) :
    (pivotTable records frequency).columns = pivotColumns records frequency := rfl

theorem pivotTable_rows_fst (records : List RawRecord) (frequency : Str) :
    (pivotTable records frequency).rows.map Prod.fst = pivotDates records frequency := by
  unfold pivotTable
  rw [List.map_map]
  exact List.map_id _

theorem pivotDates_nodup (records : List RawRecord) (frequency : Str) :
    (pivotDates records frequency).Nodup :=
  ((sortStrs_perm _).nodup_iff).mpr (nodup_seenOrder _)

theorem mem_pivotDates (records : List RawRecord) (frequency : Str) (d : Str) :
    d ∈ pivotDates records frequency ↔
      d ∈ (records.filter (survivesB frequency)).map (recDate frequency) := by
  unfold pivotDates
  rw [(sortStrs_perm _).mem_iff, mem_seenOrder]

theorem mem_rows_pivotTable (records : List RawRecord) (frequency : Str)
    (p : Str × List (Option ℚ)) (hp : p ∈ (pivotTable records frequency).rows) :
    p.1 ∈ pivotDates records frequency ∧
      p.2 = (pivotColumns records frequency).map fun c =>
        (lastObs frequency records p.1 c).getD none := by
  unfold pivotTable at hp
  obtain ⟨d, hd, hpe⟩ := List.mem_map.mp hp
  have h1 : p.1 = d := by rw [← hpe]
  have h2 : p.2 = (pivotColumns records frequency).map fun c =>
      (lastObs frequency records d c).getD none := by rw [← hpe]
  rw [h1]
  exact ⟨hd, h2⟩

/-! ### Claim C3 -/

/-- Claim C3: with `S` the records whose `TimePeriod` classifies to the
target frequency and that have a usable date and a non-empty slugified
column name, the pivot returns null exactly when `S` is empty; otherwise it
produces a table with exactly one row per distinct normalized date of `S`
(ordered ascending, no duplicates), exactly one data column per distinct
slugified name in first-seen order, and null at every cell with no
observation. -/
theorem claim3_pivot_shape (records : List RawRecord) (frequency : Str) :
    (records.filter (survivesB frequency) = [] ↔
      transform_table_frequency records frequency = none) ∧
    (∀ t, transform_table_frequency records frequency = some t →
      t.columns = seenOrder ((records.filter (survivesB frequency)).map recCol) ∧
      t.columns.Nodup ∧
      (∀ c, c ∈ t.columns ↔ c ∈ (records.filter (survivesB frequency)).map recCol) ∧
      (t.rows.map Prod.fst).Nodup ∧
      List.Sorted leStr (t.rows.map Prod.fst) ∧
      (∀ d, d ∈ t.rows.map Prod.fst ↔
        d ∈ (records.filter (survivesB frequency)).map (recDate frequency)) ∧
      (∀ p ∈ t.rows, p.2.length = t.columns.length) ∧
      (∀ p ∈ t.rows, ∀ i c, t.columns.get? i = some c →
        lastObs frequency records p.1 c = none → p.2.get? i = some none)) := by
  have hchar := transform_char records frequency
  constructor
  · constructor
    · exact hchar.1
    · intro hnone
      by_cases hS : records.filter (survivesB frequency) = []
      · exact hS
      · rw [hchar.2 hS] at hnone
        exact Option.noConfusion hnone
  · intro t ht
    have hS : records.filter (survivesB frequency) ≠ [] := by
      intro hnil
      rw [hchar.1 hnil] at ht
      exact Option.noConfusion ht
    have hT := hchar.2 hS
    rw [ht] at hT
    have hteq := Option.some.inj hT
    subst hteq
    refine ⟨rfl, nodup_seenOrder _, fun c => mem_seenOrder _ c, ?_, ?_, ?_, ?_, ?_⟩
    · rw [pivotTable_rows_fst]
      exact pivotDates_nodup records frequency
    · rw [pivotTable_rows_fst]
      exact sortStrs_sorted _
    · intro d
      rw [pivotTable_rows_fst]
      exact mem_pivotDates records frequency d
    · intro p hp
      have h2 := (mem_rows_pivotTable records frequency p hp).2
      rw [h2, List.length_map]
      rfl
    · intro p hp i c hc hno
      have h2 := (mem_rows_pivotTable records frequency p hp).2
      rw [h2, List.get?_map]
      have hc' : (pivotColumns records frequency).get? i = some c := hc
      rw [hc', Option.map_some', hno]
      rfl

/-- Claim C3 witness: the pivot-shape theorem applied to `c3recs` at annual
frequency and its concrete output table. -/
theorem claim3_witness :
    (transform_table_frequency c3recs (str "annual") =
      some ⟨[str "alpha_beta", str "gamma"],
        [(str "2023", [none, none]), (str "2024", [some 1, none])]⟩) ∧
    ([str "alpha_beta", str "gamma"] : List Str) =
      seenOrder ((c3recs.filter (survivesB (str "annual"))).map recCol) ∧
    List.Sorted leStr ([(str "2023", [(none : Option ℚ), none]),
      (str "2024", [some 1, none])].map Prod.fst) := by
  have h1 : transform_table_frequency c3recs (str "annual") =
      some ⟨[str "alpha_beta", str "gamma"],
        [(str "2023", [none, none]), (str "2024", [some 1, none])]⟩ := by decide
  have h2 := (claim3_pivot_shape c3recs (str "annual")).2 _ h1
  exact ⟨h1, h2.1, h2.2.2.2.2.1⟩

/-! ### Claim C9 -/

/-- Claim C9 (implicit): when several surviving records share the same
normalized date and slugified column, the produced cell holds the parsed
value of the record occurring last in input order (later records silently
overwrite earlier ones), no error is raised, and the table has no duplicate
column and no duplicate date row. -/
theorem claim9_last_record_wins (records : List RawRecord) (frequency : Str)
    (t : WideTable) (ht : transform_table_frequency records frequency = some t) :
    t.columns.Nodup ∧ (t.rows.map Prod.fst).Nodup ∧
    (∀ p ∈ t.rows, ∀ i c, t.columns.get? i = some c →
      p.2.get? i = some ((lastObs frequency records p.1 c).getD none)) := by
  have hchar := transform_char records frequency
  have hS : records.filter (survivesB frequency) ≠ [] := by
    intro hnil
    rw [hchar.1 hnil] at ht
    exact Option.noConfusion ht
  have hT := hchar.2 hS
  rw [ht] at hT
  have hteq := Option.some.inj hT
  subst hteq
  refine ⟨nodup_seenOrder _, ?_, ?_⟩
  · rw [pivotTable_rows_fst]
    exact pivotDates_nodup records frequency
  · intro p hp i c hc
    have h2 := (mem_rows_pivotTable records frequency p hp).2
    rw [h2, List.get?_map]
    have hc' : (pivotColumns records frequency).get? i = some c := hc
    rw [hc', Option.map_some']

/-- Claim C9 witness: the theorem applied to `c9recs`, whose two records
target the same (date, column) cell; the cell holds the value `2` of the
later record. -/
theorem claim9_witness :
    ([some (2 : ℚ)] : List (Option ℚ)).get? 0 =
      some ((lastObs (str "quarterly") c9recs (str "2024-Q1") (str "a")).getD none) ∧
    (lastObs (str "quarterly") c9recs (str "2024-Q1") (str "a")).getD none =
      some (2 : ℚ) := by
  have h := (claim9_last_record_wins c9recs (str "quarterly")
      ⟨[str "a"], [(str "2024-Q1", [some 2])]⟩ (by decide)).2.2
      (str "2024-Q1", [some 2]) (by decide) 0 (str "a") (by decide)
  exact ⟨h, by decide⟩

/-! ### Claim C10 -/

/-- Claim C10 (implicit): a surviving record whose value parses to null
still registers its slugified column and its normalized date: the column
appears in the table's column list (which is the first-seen-order list of
all survivor columns) and the date appears among the table's rows. -/
theorem claim10_null_value_registers (records : List RawRecord) (frequency : Str)
    (r : RawRecord) (hr : r ∈ records) (hs : survivesB frequency r = true)
    (hv : parse_value r.dataValue = none) :
    ∃ t, transform_table_frequency records frequency = some t ∧
      t.columns = seenOrder ((records.filter (survivesB frequency)).map recCol) ∧
      recCol r ∈ t.columns ∧
      recDate frequency r ∈ t.rows.map Prod.fst := by
  have hchar := transform_char records frequency
  have hmem : r ∈ records.filter (survivesB frequency) := List.mem_filter.mpr ⟨hr, hs⟩
  have hS : records.filter (survivesB frequency) ≠ [] := List.ne_nil_of_mem hmem
  refine ⟨_, hchar.2 hS, rfl, ?_, ?_⟩
  · rw [pivotTable_columns]
    unfold pivotColumns
    rw [mem_seenOrder]
    exact List.mem_map_of_mem recCol hmem
  · rw [pivotTable_rows_fst, mem_pivotDates]
    exact List.mem_map_of_mem (recDate frequency) hmem

/-- Claim C10 witness: the theorem applied to the single-record input
`c10recs` whose value `"n/a"` parses to null; its column and date register. -/
theorem claim10_witness :
    ∃ t, transform_table_frequency c10recs (str "annual") = some t ∧
      t.columns = seenOrder ((c10recs.filter (survivesB (str "annual"))).map recCol) ∧
      recCol (⟨str "2024", str "Foo", some (str "n/a")⟩ : RawRecord) ∈ t.columns ∧
      recDate (str "annual") (⟨str "2024", str "Foo", some (str "n/a")⟩ : RawRecord) ∈
        t.rows.map Prod.fst :=
  claim10_null_value_registers c10recs (str "annual")
    ⟨str "2024", str "Foo", some (str "n/a")⟩ (by decide) (by decide) (by decide)

/-! ### Collision Resolver lemmas (shared by Claims C2 and C4) -/

theorem setA_fresh (m : List (Str × Str)) (k v : Str) (h : k ∉ keysA m) :
    setA m k v = m ++ [(k, v)] := by
  induction m with
  | nil => rfl
  | cons p rest ih =>
    obtain ⟨k', v'⟩ := p
    have hk : ¬ k = k' := by
      intro hh
      exact h (by simp [keysA, hh])
    rw [setA, if_neg hk, ih fun hh => h (by simp [keysA] at hh ⊢; exact Or.inr hh)]
    rfl

theorem foldl_setA_eq :
    ∀ (l m : List (Str × Str)), (keysA (m ++ l)).Nodup →
      l.foldl (fun acc p => setA acc p.1 p.2) m = m ++ l := by
  intro l
  induction l with
  | nil => intro m _; simp
  | cons p l ih =>
    intro m hnd
    obtain ⟨k, v⟩ := p
    have hk : k ∉ keysA m := by
      intro hmem
      have : (keysA m ++ keysA ((k, v) :: l)).Nodup := by
        simpa [keysA] using hnd
      rw [List.nodup_append] at this
      exact this.2.2 hmem (by simp [keysA])
    have hstep : setA m k v = m ++ [(k, v)] := setA_fresh m k v hk
    rw [List.foldl_cons]
    simp only
    rw [hstep, ih (m ++ [(k, v)]) (by simpa [keysA] using hnd)]
    simp

theorem numberFrom_keys : ∀ (i : Nat) (ns : List Str), keysA (numberFrom i ns) = ns := by
  intro i ns
  induction ns generalizing i with
  | nil => rfl
  | cons n ns ih => simp [numberFrom, keysA] at ih ⊢; exact ih _

theorem getA_append (m1 m2 : List (Str × Str)) (k : Str) :
    getA (m1 ++ m2) k = match getA m1 k with
      | some v => some v
      | none => getA m2 k := by
  induction m1 with
  | nil => rfl
  | cons p rest ih =>
    obtain ⟨k', v'⟩ := p
    by_cases h : k = k'
    · simp [getA, h]
    · simp only [List.cons_append, getA, if_neg h]
      exact ih

theorem getA_numberFrom (ns : List Str) (tn : Str) (h : tn ∈ ns) :
    ∀ i, getA (numberFrom i ns) tn = some (natStr (posOf tn ns + i)) := by
  induction ns with
  | nil => exact absurd h (List.not_mem_nil tn)
  | cons n ns ih =>
    intro i
    by_cases he : tn = n
    · subst he
      rw [numberFrom, getA, if_pos rfl, posOf, if_pos rfl, Nat.zero_add]
    · have hmem : tn ∈ ns := by
        rcases List.mem_cons.mp h with h1 | h1
        · exact absurd h1 he
        · exact h1
      rw [numberFrom, getA, if_neg he, ih hmem (i + 1), posOf, if_neg he]
      have harith : posOf tn ns + (i + 1) = posOf tn ns + 1 + i := by omega
      rw [harith]

theorem getA_numberFrom_none (ns : List Str) (tn : Str) (h : tn ∉ ns) (i : Nat) :
    getA (numberFrom i ns) tn = none := by
  induction ns generalizing i with
  | nil => rfl
  | cons n ns ih =>
    have he : ¬ tn = n := fun hh => h (by rw [hh]; exact List.mem_cons_self n ns)
    rw [numberFrom, getA, if_neg he]
    exact ih (fun hh => h (List.mem_cons_of_mem n hh)) (i + 1)

theorem mem_groupNames (catalog : List (Str × Str)) (k tn : Str) :
    tn ∈ groupNames catalog k ↔ ∃ d, (tn, d) ∈ catalog ∧ base_key tn d = k := by
  unfold groupNames
  constructor
  · intro h
    obtain ⟨e, he, heq⟩ := List.mem_map.mp h
    rw [List.mem_filter] at he
    subst heq
    exact ⟨e.2, he.1, beq_iff_eq.mp he.2⟩
  · rintro ⟨d, hd, hk⟩
    refine List.mem_map.mpr ⟨(tn, d), ?_, rfl⟩
    rw [List.mem_filter]
    exact ⟨hd, beq_iff_eq.mpr hk⟩

theorem nodup_fst_unique {catalog : List (Str × Str)}
    (hnd : (catalog.map Prod.fst).Nodup) {a b c : Str}
    (h1 : (a, b) ∈ catalog) (h2 : (a, c) ∈ catalog) : b = c := by
  induction catalog with
  | nil => exact absurd h1 (List.not_mem_nil _)
  | cons p rest ih =>
    rw [List.map_cons, List.nodup_cons] at hnd
    rcases List.mem_cons.mp h1 with e1 | e1 <;> rcases List.mem_cons.mp h2 with e2 | e2
    · rw [← e1] at e2
      exact (Prod.mk.injEq _ _ _ _ ▸ e2).2.symm
    · exfalso
      apply hnd.1
      rw [← e1]
      show a ∈ rest.map Prod.fst
      exact List.mem_map.mpr ⟨(a, c), e2, rfl⟩
    · exfalso
      apply hnd.1
      rw [← e2]
      show a ∈ rest.map Prod.fst
      exact List.mem_map.mpr ⟨(a, b), e1, rfl⟩
    · exact ih hnd.2 e1 e2

theorem groupNames_nodup {catalog : List (Str × Str)}
    (hnd : (catalog.map Prod.fst).Nodup) (k : Str) :
    (groupNames catalog k).Nodup := by
  unfold groupNames
  exact hnd.sublist ((List.filter_sublist catalog).map Prod.fst)

theorem mem_groupNames_iff {catalog : List (Str × Str)}
    (hnd : (catalog.map Prod.fst).Nodup) {e : Str × Str} (he : e ∈ catalog) (k : Str) :
    e.1 ∈ groupNames catalog k ↔ k = base_key e.1 e.2 := by
  constructor
  · intro h
    obtain ⟨d, hd, hk⟩ := (mem_groupNames catalog k e.1).mp h
    have : d = e.2 := nodup_fst_unique hnd hd (by simpa using he)
    rw [this] at hk
    exact hk.symm
  · intro h
    exact (mem_groupNames catalog k e.1).mpr ⟨e.2, by simpa using he, h.symm⟩

theorem mem_keysA_suffixEntries {catalog : List (Str × Str)} {tn : Str} :
    ∀ {ks : List Str}, tn ∈ keysA (suffixEntries catalog ks) →
      ∃ k ∈ ks, tn ∈ groupNames catalog k := by
  intro ks
  induction ks with
  | nil => intro h; exact absurd h (List.not_mem_nil tn)
  | cons k ks ih =>
    intro h
    rw [suffixEntries] at h
    simp only [keysA, List.map_append, List.mem_append] at h
    rcases h with h | h
    · by_cases hlen : 1 < (groupNames catalog k).length
      · rw [if_pos hlen] at h
        have : tn ∈ keysA (numberFrom 1 (sortStrs (groupNames catalog k))) := h
        rw [numberFrom_keys] at this
        exact ⟨k, List.mem_cons_self k ks, (sortStrs_perm _).mem_iff.mp this⟩
      · rw [if_neg hlen] at h
        exact absurd h (List.not_mem_nil tn)
    · obtain ⟨k', hk', hmem⟩ := ih h
      exact ⟨k', List.mem_cons_of_mem k hk', hmem⟩

theorem suffixEntries_keys_nodup {catalog : List (Str × Str)}
    (hnd : (catalog.map Prod.fst).Nodup) :
    ∀ {ks : List Str}, ks.Nodup → (keysA (suffixEntries catalog ks)).Nodup := by
  intro ks
  induction ks with
  | nil => intro _; exact List.nodup_nil
  | cons k ks ih =>
    intro hks
    rw [List.nodup_cons] at hks
    rw [suffixEntries]
    have hrec := ih hks.2
    simp only [keysA, List.map_append]
    rw [List.nodup_append]
    refine ⟨?_, hrec, ?_⟩
    · by_cases hlen : 1 < (groupNames catalog k).length
      · rw [if_pos hlen]
        have : keysA (numberFrom 1 (sortStrs (groupNames catalog k))) =
            sortStrs (groupNames catalog k) := numberFrom_keys _ _
        show (keysA (numberFrom 1 (sortStrs (groupNames catalog k)))).Nodup
        rw [this]
        exact ((sortStrs_perm _).nodup_iff).mpr (groupNames_nodup hnd k)
      · rw [if_neg hlen]
        exact List.nodup_nil
    · intro tn htn1 htn2
      have h2 : ∃ k' ∈ ks, tn ∈ groupNames catalog k' := mem_keysA_suffixEntries htn2
      obtain ⟨k', hk', hg'⟩ := h2
      have hg : tn ∈ groupNames catalog k := by
        by_cases hlen : 1 < (groupNames catalog k).length
        · rw [if_pos hlen] at htn1
          have : tn ∈ keysA (numberFrom 1 (sortStrs (groupNames catalog k))) := htn1
          rw [numberFrom_keys] at this
          exact (sortStrs_perm _).mem_iff.mp this
        · rw [if_neg hlen] at htn1
          exact absurd htn1 (List.not_mem_nil tn)
      obtain ⟨d, hd, hkd⟩ := (mem_groupNames catalog k tn).mp hg
      obtain ⟨d', hd', hkd'⟩ := (mem_groupNames catalog k' tn).mp hg'
      have : d = d' := nodup_fst_unique hnd hd hd'
      rw [this, hkd'] at hkd
      exact hks.1 (hkd ▸ hk')

theorem getA_suffixEntries {catalog : List (Str × Str)}
    (hnd : (catalog.map Prod.fst).Nodup) {e : Str × Str} (he : e ∈ catalog) :
    ∀ {ks : List Str}, ks.Nodup →
      getA (suffixEntries catalog ks) e.1 =
        if base_key e.1 e.2 ∈ ks ∧
            1 < (groupNames catalog (base_key e.1 e.2)).length
        then some (natStr
          (posOf e.1 (sortStrs (groupNames catalog (base_key e.1 e.2))) + 1))
        else none := by
  intro ks
  induction ks with
  | nil =>
    intro _
    rw [if_neg]
    · rfl
    · rintro ⟨h, _⟩
      exact List.not_mem_nil _ h
  | cons k ks ih =>
    intro hks
    rw [List.nodup_cons] at hks
    rw [suffixEntries, getA_append]
    by_cases hkey : k = base_key e.1 e.2
    · subst hkey
      by_cases hlen : 1 < (groupNames catalog (base_key e.1 e.2)).length
      · rw [if_pos hlen]
        have hmem : e.1 ∈ sortStrs (groupNames catalog (base_key e.1 e.2)) :=
          (sortStrs_perm _).mem_iff.mpr
            ((mem_groupNames_iff hnd he (base_key e.1 e.2)).mpr rfl)
        rw [getA_numberFrom _ _ hmem 1]
        rw [if_pos ⟨List.mem_cons_self _ _, hlen⟩]
      · rw [if_neg hlen]
        have h1 : getA ([] : List (Str × Str)) e.1 = none := rfl
        rw [h1, ih hks.2, if_neg, if_neg]
        · rintro ⟨_, hl⟩
          exact hlen hl
        · rintro ⟨hmem, hl⟩
          exact hlen hl
    · have hnot : e.1 ∉ groupNames catalog k := by
        intro hmem
        exact hkey ((mem_groupNames_iff hnd he k).mp hmem)
      have hblock : getA (if 1 < (groupNames catalog k).length
          then numberFrom 1 (sortStrs (groupNames catalog k)) else []) e.1 = none := by
        by_cases hlen : 1 < (groupNames catalog k).length
        · rw [if_pos hlen]
          exact getA_numberFrom_none _ _
            (fun hm => hnot ((sortStrs_perm _).mem_iff.mp hm)) 1
        · rw [if_neg hlen]
          rfl
      rw [hblock, ih hks.2]
      by_cases hin : base_key e.1 e.2 ∈ ks ∧
          1 < (groupNames catalog (base_key e.1 e.2)).length
      · rw [if_pos hin, if_pos ⟨List.mem_cons_of_mem k hin.1, hin.2⟩]
      · rw [if_neg hin, if_neg]
        rintro ⟨hm, hl⟩
        rcases List.mem_cons.mp hm with hm1 | hm1
        · exact hkey hm1.symm
        · exact hin ⟨hm1, hl⟩

theorem catalogKeys_nodup (catalog : List (Str × Str)) : (catalogKeys catalog).Nodup :=
  nodup_seenOrder _

theorem base_key_mem_catalogKeys {catalog : List (Str × Str)} {e : Str × Str}
    (he : e ∈ catalog) : base_key e.1 e.2 ∈ catalogKeys catalog := by
  unfold catalogKeys
  rw [mem_seenOrder]
  exact List.mem_map.mpr ⟨e, he, rfl⟩

theorem suffix_map_eq {catalog : List (Str × Str)}
    (hnd : (catalog.map Prod.fst).Nodup) :
    suffix_map catalog = suffixEntries catalog (catalogKeys catalog) := by
  unfold suffix_map
  have h := suffixEntries_keys_nodup hnd (catalogKeys_nodup catalog)
  exact foldl_setA_eq _ [] (by simpa [keysA] using h)

/-- The single characterization of the Collision Resolver's suffix for a
catalog entry, under the catalog invariant that table identifiers are
unique. -/
theorem getSuffix_char {catalog : List (Str × Str)}
    (hnd : (catalog.map Prod.fst).Nodup) {e : Str × Str} (he : e ∈ catalog) :
    getSuffix catalog e.1 =
      if 1 < (groupNames catalog (base_key e.1 e.2)).length
      then natStr (posOf e.1 (sortStrs (groupNames catalog (base_key e.1 e.2))) + 1)
      else [] := by
  unfold getSuffix
  rw [suffix_map_eq hnd, getA_suffixEntries hnd he (catalogKeys_nodup catalog)]
  by_cases hlen : 1 < (groupNames catalog (base_key e.1 e.2)).length
  · rw [if_pos ⟨base_key_mem_catalogKeys he, hlen⟩, if_pos hlen]
    rfl
  · rw [if_neg fun hh => hlen hh.2, if_neg hlen]
    rfl



theorem posOf_inj {l : List Str} {a b : Str} (ha : a ∈ l) (hb : b ∈ l)
    (h : posOf a l = posOf b l) : a = b := by
  induction l with
  | nil => exact absurd ha (List.not_mem_nil a)
  | cons n ns ih =>
    by_cases h1 : a = n <;> by_cases h2 : b = n
    · rw [h1, h2]
    · rw [posOf, if_pos h1, posOf, if_neg h2] at h
      exact absurd h.symm (Nat.succ_ne_zero _)
    · rw [posOf, if_neg h1, posOf, if_pos h2] at h
      exact absurd h (Nat.succ_ne_zero _)
    · have ha2 : a ∈ ns := by
        rcases List.mem_cons.mp ha with hx | hx
        · exact absurd hx h1
        · exact hx
      have hb2 : b ∈ ns := by
        rcases List.mem_cons.mp hb with hx | hx
        · exact absurd hx h2
        · exact hx
      rw [posOf, if_neg h1, posOf, if_neg h2] at h
      exact ih ha2 hb2 (Nat.succ_injective h)

theorem posOf_eq_zero_of_min {l : List Str} {y : Str}
    (hsort : List.Sorted leStr l) (hy : y ∈ l) (hmin : ∀ x ∈ l, leStr y x) :
    posOf y l = 0 := by
  cases l with
  | nil => exact absurd hy (List.not_mem_nil y)
  | cons n t =>
    by_cases h : y = n
    · rw [posOf, if_pos h]
    · exfalso
      have hyt : y ∈ t := by
        rcases List.mem_cons.mp hy with hx | hx
        · exact absurd hx h
        · exact hx
      rw [List.sorted_cons] at hsort
      have h1 : leStr n y := hsort.1 y hyt
      have h2 : leStr y n := hmin n (List.mem_cons_self n t)
      exact h (lexLe_antisymm h2 h1)

/-! ### Claim C2 -/

/-- Claim C2: grouping catalog entries by the base key
`"{subject}_{measurement}"`, every base key shared by two or more table
identifiers causes each of them to receive a distinct non-empty numeric
suffix, assigned by numbering the colliding identifiers in lexicographic
order starting from `"1"`, with `"1"` going to the lexicographically
smallest identifier; an identifier whose base key is unique receives the
empty suffix.  (The catalog invariant that table identifiers are unique is
the `hnd` hypothesis.) -/
theorem claim2_collision_resolver (catalog : List (Str × Str))
    (hnd : (catalog.map Prod.fst).Nodup) (e : Str × Str) (he : e ∈ catalog) :
    (1 < (groupNames catalog (base_key e.1 e.2)).length →
      getSuffix catalog e.1 =
        natStr (posOf e.1 (sortStrs (groupNames catalog (base_key e.1 e.2))) + 1) ∧
      getSuffix catalog e.1 ≠ [] ∧
      (∀ c ∈ getSuffix catalog e.1, c.isDigit = true) ∧
      (∀ e2 ∈ catalog, base_key e2.1 e2.2 = base_key e.1 e.2 → e2.1 ≠ e.1 →
        getSuffix catalog e2.1 ≠ getSuffix catalog e.1) ∧
      ((∀ n ∈ groupNames catalog (base_key e.1 e.2), leStr e.1 n) →
        getSuffix catalog e.1 = str "1")) ∧
    ((groupNames catalog (base_key e.1 e.2)).length ≤ 1 →
      getSuffix catalog e.1 = []) := by
  have hchar := getSuffix_char hnd he
  constructor
  · intro hlen
    have ha : getSuffix catalog e.1 =
        natStr (posOf e.1 (sortStrs (groupNames catalog (base_key e.1 e.2))) + 1) := by
      rw [hchar, if_pos hlen]
    refine ⟨ha, ?_, ?_, ?_, ?_⟩
    · rw [ha]
      exact natStr_ne_nil _
    · rw [ha]
      exact natStr_isDigit _
    · intro e2 he2 hb hne heq
      have ha2 : getSuffix catalog e2.1 =
          natStr (posOf e2.1 (sortStrs (groupNames catalog (base_key e.1 e.2))) + 1) := by
        have := getSuffix_char hnd he2
        rw [hb] at this
        rw [this, if_pos hlen]
      rw [ha, ha2] at heq
      have hpos := Nat.succ_injective (natStr_injective heq)
      have hm2 : e2.1 ∈ sortStrs (groupNames catalog (base_key e.1 e.2)) :=
        (sortStrs_perm _).mem_iff.mpr ((mem_groupNames_iff hnd he2 _).mpr hb.symm)
      have hm1 : e.1 ∈ sortStrs (groupNames catalog (base_key e.1 e.2)) :=
        (sortStrs_perm _).mem_iff.mpr ((mem_groupNames_iff hnd he _).mpr rfl)
      exact hne (posOf_inj hm2 hm1 hpos)
    · intro hmin
      have hm1 : e.1 ∈ sortStrs (groupNames catalog (base_key e.1 e.2)) :=
        (sortStrs_perm _).mem_iff.mpr ((mem_groupNames_iff hnd he _).mpr rfl)
      have hzero : posOf e.1 (sortStrs (groupNames catalog (base_key e.1 e.2))) = 0 :=
        posOf_eq_zero_of_min (sortStrs_sorted _) hm1
          fun x hx => hmin x ((sortStrs_perm _).mem_iff.mp hx)
      rw [ha, hzero]
      rfl
  · intro hlen
    rw [hchar, if_neg (Nat.not_lt.mpr hlen)]

/-- Claim C2 witness: on the concrete catalog `c2catalog`, the theorem gives
suffix `"1"` to `T1` (the smallest colliding identifier), a different suffix
to `T3`, and the empty suffix to the collision-free `TX`. -/
theorem claim2_witness :
    getSuffix c2catalog (str "T1") = str "1" ∧
    getSuffix c2catalog (str "T3") ≠ getSuffix c2catalog (str "T1") ∧
    getSuffix c2catalog (str "TX") = [] := by
  have h1 := claim2_collision_resolver c2catalog (by decide) (str "T1", c2desc) (by decide)
  have h3 := claim2_collision_resolver c2catalog (by decide) (str "TX", str "junk") (by decide)
  refine ⟨(h1.1 (by decide)).2.2.2.2 (by decide), ?_, h3.2 (by decide)⟩
  exact (h1.1 (by decide)).2.2.2.1 (str "T3", c2desc) (by decide) (by decide) (by decide)

/-! ### Claim C4 machinery: parsing a dataset id back into its parts -/

theorem str_underscore : str "_" = ['_'] := rfl

/-- Shape of `make_dataset_id`: prefix, base key, `_`, frequency, and an
optional `_suffix`. -/
theorem make_dataset_id_shape (tn desc f sfx : Str) :
    make_dataset_id tn desc f sfx =
      if sfx = [] then (str "bea_" ++ base_key tn desc) ++ ('_' :: f)
      else ((str "bea_" ++ base_key tn desc) ++ ('_' :: f)) ++ ('_' :: sfx) := by
  cases sfx with
  | nil =>
    rw [if_pos rfl]
    simp [make_dataset_id, base_key, List.append_assoc, str_underscore]
  | cons c cs =>
    rw [if_neg (List.cons_ne_nil c cs)]
    simp [make_dataset_id, base_key, List.append_assoc, str_underscore]

theorem sep_ne_of_shorter {b1 b2 f1 f2 : Str} {u : Char}
    (h : b1 ++ (u :: f1) = b2 ++ (u :: f2)) (hu2 : u ∉ f2)
    (hlen : f1.length < f2.length) : False := by
  have p1 : List.IsPrefix (f1.reverse ++ [u]) ((b1 ++ (u :: f1)).reverse) := by
    rw [List.reverse_append, List.reverse_cons]
    exact ⟨b1.reverse, rfl⟩
  have p2 : List.IsPrefix f2.reverse ((b2 ++ (u :: f2)).reverse) := by
    rw [List.reverse_append, List.reverse_cons]
    exact ⟨[u] ++ b2.reverse, by rw [← List.append_assoc]⟩
  rw [h] at p1
  have hpp := List.prefix_of_prefix_length_le p1 p2 (by simp; omega)
  have hmem : u ∈ f2.reverse := hpp.subset (by simp)
  exact hu2 (List.mem_reverse.mp hmem)

/-- Splitting at the last separator: if the part after the separator contains
no separator on either side, both parts agree. -/
theorem sep_inj {b1 b2 f1 f2 : Str} {u : Char}
    (h : b1 ++ (u :: f1) = b2 ++ (u :: f2)) (hu1 : u ∉ f1) (hu2 : u ∉ f2) :
    b1 = b2 ∧ f1 = f2 := by
  rcases Nat.lt_trichotomy f1.length f2.length with hl | hl | hl
  · exact (sep_ne_of_shorter h hu2 hl).elim
  · have hinj := List.append_inj' h (by simp [hl])
    exact ⟨hinj.1, (List.cons.inj hinj.2).2⟩
  · exact (sep_ne_of_shorter h.symm hu1 hl).elim

theorem digits_ne_of_shorter {x y s1 s2 : Str} {a : Char}
    (h : (x ++ [a]) ++ s1 = y ++ s2) (hna : a.isDigit = false)
    (hd2 : ∀ c ∈ s2, c.isDigit = true) (hlen : s1.length < s2.length) : False := by
  have p1 : List.IsPrefix (s1.reverse ++ [a]) (((x ++ [a]) ++ s1).reverse) := by
    rw [List.reverse_append, List.reverse_append]
    refine ⟨x.reverse, ?_⟩
    rw [List.append_assoc]
    rfl
  have p2 : List.IsPrefix s2.reverse ((y ++ s2).reverse) := by
    rw [List.reverse_append]
    exact ⟨y.reverse, rfl⟩
  rw [h] at p1
  have hpp := List.prefix_of_prefix_length_le p1 p2 (by simp; omega)
  have hmem : a ∈ s2.reverse := hpp.subset (by simp)
  rw [hd2 a (List.mem_reverse.mp hmem)] at hna
  exact Bool.noConfusion hna

/-- Splitting at the maximal all-digit tail: if the character before each
tail is a non-digit, the tails agree. -/
theorem tail_digits_inj {x y s1 s2 : Str} {a b : Char}
    (h : (x ++ [a]) ++ s1 = (y ++ [b]) ++ s2)
    (hna : a.isDigit = false) (hnb : b.isDigit = false)
    (hd1 : ∀ c ∈ s1, c.isDigit = true) (hd2 : ∀ c ∈ s2, c.isDigit = true) :
    x ++ [a] = y ++ [b] ∧ s1 = s2 := by
  rcases Nat.lt_trichotomy s1.length s2.length with hl | hl | hl
  · exact (digits_ne_of_shorter h hna hd2 hl).elim
  · exact List.append_inj' h hl
  · exact (digits_ne_of_shorter h.symm hnb hd1 hl).elim

theorem freq_no_underscore {f : Str} (hf : f ∈ freqList) : ('_' : Char) ∉ f := by
  rw [freqList] at hf
  rcases List.mem_cons.mp hf with h | h
  · rw [h]; decide
  rcases List.mem_cons.mp h with h | h
  · rw [h]; decide
  rcases List.mem_cons.mp h with h | h
  · rw [h]; decide
  · exact absurd h (List.not_mem_nil f)

theorem freq_last {f : Str} (hf : f ∈ freqList) :
    ∃ d, ('_' :: f).getLast? = some d ∧ d.isDigit = false := by
  rw [freqList] at hf
  rcases List.mem_cons.mp hf with h | h
  · exact ⟨'l', by rw [h]; decide, by decide⟩
  rcases List.mem_cons.mp h with h | h
  · exact ⟨'y', by rw [h]; decide, by decide⟩
  rcases List.mem_cons.mp h with h | h
  · exact ⟨'y', by rw [h]; decide, by decide⟩
  · exact absurd h (List.not_mem_nil f)

theorem suffix_last {s : Str} (hne : s ≠ [])
    (hdig : ∀ c ∈ s, c.isDigit = true) :
    ∃ d, ('_' :: s).getLast? = some d ∧ d.isDigit = true := by
  cases s with
  | nil => exact absurd rfl hne
  | cons c t =>
    have h1 : ('_' :: c :: t).getLast? = (c :: t).getLast? :=
      List.getLast?_cons_cons
    have h2 : (c :: t).getLast? = some ((c :: t).getLast (List.cons_ne_nil c t)) :=
      List.getLast?_eq_getLast _ _
    refine ⟨(c :: t).getLast (List.cons_ne_nil c t), by rw [h1, h2], ?_⟩
    exact hdig _ (List.getLast_mem _)

theorem getSuffix_cases {catalog : List (Str × Str)}
    (hnd : (catalog.map Prod.fst).Nodup) {e : Str × Str} (he : e ∈ catalog) :
    getSuffix catalog e.1 = [] ∨
      (getSuffix catalog e.1 ≠ [] ∧ ∀ c ∈ getSuffix catalog e.1, c.isDigit = true) := by
  rw [getSuffix_char hnd he]
  by_cases hlen : 1 < (groupNames catalog (base_key e.1 e.2)).length
  · rw [if_pos hlen]
    exact Or.inr ⟨natStr_ne_nil _, natStr_isDigit _⟩
  · rw [if_neg hlen]
    exact Or.inl rfl

theorem two_mem_one_lt_length {l : List Str} {a b : Str}
    (ha : a ∈ l) (hb : b ∈ l) (hne : a ≠ b) : 1 < l.length := by
  cases l with
  | nil => exact absurd ha (List.not_mem_nil a)
  | cons n t =>
    cases t with
    | nil =>
      rw [List.mem_singleton] at ha hb
      exact absurd (ha.trans hb.symm) hne
    | cons m t2 => simp

theorem entry_ext {catalog : List (Str × Str)}
    (hnd : (catalog.map Prod.fst).Nodup) {e1 e2 : Str × Str}
    (he1 : e1 ∈ catalog) (he2 : e2 ∈ catalog) (h : e1.1 = e2.1) : e1 = e2 := by
  have h1 : (e1.1, e1.2) ∈ catalog := by simpa using he1
  have h2 : (e1.1, e2.2) ∈ catalog := by rw [h]; simpa using he2
  have hsnd : e1.2 = e2.2 := nodup_fst_unique hnd h1 h2
  exact Prod.ext h hsnd

theorem one_lt_group_of_suffix_ne {catalog : List (Str × Str)}
    (hnd : (catalog.map Prod.fst).Nodup) {e : Str × Str} (he : e ∈ catalog)
    (hs : getSuffix catalog e.1 ≠ []) :
    1 < (groupNames catalog (base_key e.1 e.2)).length := by
  by_contra h
  rw [getSuffix_char hnd he, if_neg h] at hs
  exact hs rfl

theorem suffix_inj_in_group {catalog : List (Str × Str)}
    (hnd : (catalog.map Prod.fst).Nodup) {e1 e2 : Str × Str}
    (he1 : e1 ∈ catalog) (he2 : e2 ∈ catalog)
    (hb : base_key e2.1 e2.2 = base_key e1.1 e1.2)
    (hlen : 1 < (groupNames catalog (base_key e1.1 e1.2)).length)
    (heq : getSuffix catalog e1.1 = getSuffix catalog e2.1) : e1.1 = e2.1 := by
  have h1 : getSuffix catalog e1.1 =
      natStr (posOf e1.1 (sortStrs (groupNames catalog (base_key e1.1 e1.2))) + 1) := by
    rw [getSuffix_char hnd he1, if_pos hlen]
  have h2 : getSuffix catalog e2.1 =
      natStr (posOf e2.1 (sortStrs (groupNames catalog (base_key e1.1 e1.2))) + 1) := by
    have := getSuffix_char hnd he2
    rw [hb] at this
    rw [this, if_pos hlen]
  rw [h1, h2] at heq
  have hpos := Nat.succ_injective (natStr_injective heq)
  have hm1 : e1.1 ∈ sortStrs (groupNames catalog (base_key e1.1 e1.2)) :=
    (sortStrs_perm _).mem_iff.mpr ((mem_groupNames_iff hnd he1 _).mpr rfl)
  have hm2 : e2.1 ∈ sortStrs (groupNames catalog (base_key e1.1 e1.2)) :=
    (sortStrs_perm _).mem_iff.mpr ((mem_groupNames_iff hnd he2 _).mpr hb.symm)
  exact posOf_inj hm1 hm2 hpos

/-! ### Claim C4 -/

/-- Claim C4: within one run over a catalog (whose table identifiers are
unique), the dataset identifiers produced by `make_dataset_id` together with
the Collision Resolver's suffixes are globally unique: two distinct
(table identifier, frequency) pairs never receive the same identifier. -/
theorem claim4_dataset_id_unique (catalog : List (Str × Str))
    (hnd : (catalog.map Prod.fst).Nodup)
    (e1 : Str × Str) (he1 : e1 ∈ catalog) (e2 : Str × Str) (he2 : e2 ∈ catalog)
    (f1 : Str) (hf1 : f1 ∈ freqList) (f2 : Str) (hf2 : f2 ∈ freqList)
    (hne : ¬(e1.1 = e2.1 ∧ f1 = f2)) :
    make_dataset_id e1.1 e1.2 f1 (getSuffix catalog e1.1) ≠
      make_dataset_id e2.1 e2.2 f2 (getSuffix catalog e2.1) := by
  intro heq
  rw [make_dataset_id_shape, make_dataset_id_shape] at heq
  rcases getSuffix_cases hnd he1 with hs1 | ⟨hs1ne, hs1d⟩ <;>
    rcases getSuffix_cases hnd he2 with hs2 | ⟨hs2ne, hs2d⟩
  · -- both suffixes empty
    rw [if_pos hs1, if_pos hs2] at heq
    have hsep := sep_inj heq (freq_no_underscore hf1) (freq_no_underscore hf2)
    have hbk : base_key e1.1 e1.2 = base_key e2.1 e2.2 :=
      List.append_cancel_left hsep.1
    by_cases hnm : e1.1 = e2.1
    · exact hne ⟨hnm, hsep.2⟩
    · have hm1 : e1.1 ∈ groupNames catalog (base_key e1.1 e1.2) :=
        (mem_groupNames_iff hnd he1 _).mpr rfl
      have hm2 : e2.1 ∈ groupNames catalog (base_key e1.1 e1.2) :=
        (mem_groupNames_iff hnd he2 _).mpr hbk
      have hlen := two_mem_one_lt_length hm1 hm2 hnm
      rw [getSuffix_char hnd he1, if_pos hlen] at hs1
      exact natStr_ne_nil _ hs1
  · -- first empty, second not: the ids end in a letter resp. a digit
    rw [if_pos hs1, if_neg hs2ne] at heq
    obtain ⟨d1, hd1, hd1f⟩ := freq_last hf1
    obtain ⟨d2, hd2, hd2t⟩ := suffix_last hs2ne hs2d
    have hL : ((str "bea_" ++ base_key e1.1 e1.2) ++ ('_' :: f1)).getLast? = some d1 := by
      rw [List.getLast?_append_of_ne_nil _ (List.cons_ne_nil _ _), hd1]
    have hR : (((str "bea_" ++ base_key e2.1 e2.2) ++ ('_' :: f2)) ++
        ('_' :: getSuffix catalog e2.1)).getLast? = some d2 := by
      rw [List.getLast?_append_of_ne_nil _ (List.cons_ne_nil _ _), hd2]
    rw [heq, hR] at hL
    have : d2 = d1 := Option.some.inj hL
    rw [this, hd1f] at hd2t
    exact Bool.noConfusion hd2t
  · -- first not empty, second empty: symmetric
    rw [if_neg hs1ne, if_pos hs2] at heq
    obtain ⟨d2, hd2, hd2f⟩ := freq_last hf2
    obtain ⟨d1, hd1, hd1t⟩ := suffix_last hs1ne hs1d
    have hL : (((str "bea_" ++ base_key e1.1 e1.2) ++ ('_' :: f1)) ++
        ('_' :: getSuffix catalog e1.1)).getLast? = some d1 := by
      rw [List.getLast?_append_of_ne_nil _ (List.cons_ne_nil _ _), hd1]
    have hR : ((str "bea_" ++ base_key e2.1 e2.2) ++ ('_' :: f2)).getLast? = some d2 := by
      rw [List.getLast?_append_of_ne_nil _ (List.cons_ne_nil _ _), hd2]
    rw [heq, hR] at hL
    have : d2 = d1 := Option.some.inj hL
    rw [this, hd1t] at hd2f
    exact Bool.noConfusion hd2f
  · -- both suffixes non-empty
    rw [if_neg hs1ne, if_neg hs2ne] at heq
    have heq2 : (((str "bea_" ++ base_key e1.1 e1.2) ++ ('_' :: f1)) ++ ['_']) ++
        getSuffix catalog e1.1 =
        (((str "bea_" ++ base_key e2.1 e2.2) ++ ('_' :: f2)) ++ ['_']) ++
        getSuffix catalog e2.1 := by
      rw [List.append_assoc _ ['_'], List.append_assoc _ ['_']]
      exact heq
    have ht := tail_digits_inj heq2 (by decide) (by decide) hs1d hs2d
    have hX : (str "bea_" ++ base_key e1.1 e1.2) ++ ('_' :: f1) =
        (str "bea_" ++ base_key e2.1 e2.2) ++ ('_' :: f2) :=
      List.append_cancel_right ht.1
    have hsep := sep_inj hX (freq_no_underscore hf1) (freq_no_underscore hf2)
    have hbk : base_key e1.1 e1.2 = base_key e2.1 e2.2 :=
      List.append_cancel_left hsep.1
    by_cases hnm : e1.1 = e2.1
    · exact hne ⟨hnm, hsep.2⟩
    · have hlen := one_lt_group_of_suffix_ne hnd he1 hs1ne
      exact hnm (suffix_inj_in_group hnd he1 he2 hbk.symm hlen ht.2)

/-- Claim C4 witness: on the concrete colliding catalog `c2catalog`, the
theorem distinguishes the ids of (`T1`, quarterly) vs (`T3`, quarterly) and
of (`T1`, annual) vs (`T1`, quarterly). -/
theorem claim4_witness :
    make_dataset_id (str "T1") c2desc (str "quarterly") (getSuffix c2catalog (str "T1")) ≠
      make_dataset_id (str "T3") c2desc (str "quarterly") (getSuffix c2catalog (str "T3")) ∧
    make_dataset_id (str "T1") c2desc (str "annual") (getSuffix c2catalog (str "T1")) ≠
      make_dataset_id (str "T1") c2desc (str "quarterly") (getSuffix c2catalog (str "T1")) := by
  constructor
  · exact claim4_dataset_id_unique c2catalog (by decide)
      (str "T1", c2desc) (by decide) (str "T3", c2desc) (by decide)
      (str "quarterly") (by decide) (str "quarterly") (by decide) (by decide)
  · exact claim4_dataset_id_unique c2catalog (by decide)
      (str "T1", c2desc) (by decide) (str "T1", c2desc) (by decide)
      (str "annual") (by decide) (str "quarterly") (by decide) (by decide)



/-! ### Claim C1 -/

theorem runFrom_ok (catalog : List (Str × Str)) (dataOf : Str → Option RawData) :
    ∀ l : List (Str × Str),
      (∀ e ∈ l, ∃ out, processEntry catalog dataOf e = Except.ok out) →
      ∀ created skipped ups,
        ∃ out, runFrom catalog dataOf l created skipped ups = Except.ok out := by
  intro l
  induction l with
  | nil =>
    intro _ c s u
    exact ⟨(c, s, u), rfl⟩
  | cons e rest ih =>
    intro h c s u
    obtain ⟨out, hout⟩ := h e (List.mem_cons_self e rest)
    obtain ⟨c1, s1, u1⟩ := out
    rw [runFrom, hout]
    exact ih (fun x hx => h x (List.mem_cons_of_mem e hx)) _ _ _

/-- Claim C1 counterexample: the claim states that a validation failure
never aborts the whole run and that the Orchestrator always completes the
catalog pass reporting aggregate counts; on the concrete two-entry catalog
`c1Catalog`, the first entry's validation failure propagates and `run`
returns the error — the second entry, which on its own would publish a
dataset, is never processed and no counts are reported. -/
theorem claim1_counterexample :
    run c1Catalog c1DataOf =
      Except.error (str "Invalid annual date format: garbage") ∧
    processEntry c1Catalog c1DataOf (str "TGOOD", str "junk2") =
      Except.ok (1, 0, [(str "bea_tgood_data_annual",
        ⟨[str "y"], [(str "2024", [some 2])]⟩)]) :=
  ⟨by decide, by decide⟩

/-- Claim C1 (amended): a Validator failure halts that table/frequency pair
immediately and the diagnostic propagates out of the catalog loop, aborting
the entire run — the remaining entries are not processed and no aggregate
counts are reported; when no pair fails validation, the Orchestrator
completes the full catalog pass and reports the aggregate
created/skipped counts. -/
theorem claim1_validator_failure_aborts :
    (∀ (catalog : List (Str × Str)) (dataOf : Str → Option RawData)
        (e : Str × Str) (rest : List (Str × Str)) (created skipped : Nat)
        (ups : List (Str × WideTable)) (msg : Str),
      processEntry catalog dataOf e = Except.error msg →
      runFrom catalog dataOf (e :: rest) created skipped ups = Except.error msg) ∧
    (∀ (catalog : List (Str × Str)) (dataOf : Str → Option RawData),
      (∀ e ∈ catalog, ∃ out, processEntry catalog dataOf e = Except.ok out) →
      ∃ out, run catalog dataOf = Except.ok out) := by
  constructor
  · intro catalog dataOf e rest c s u msg h
    rw [runFrom, h]
  · intro catalog dataOf h
    exact runFrom_ok catalog dataOf catalog h 0 0 []

/-- Claim C1 witness: the amended theorem applied to `c1Catalog`, whose
first entry fails validation — the loop returns that diagnostic and never
reaches the second entry. -/
theorem claim1_witness :
    runFrom c1Catalog c1DataOf c1Catalog 0 0 [] =
      Except.error (str "Invalid annual date format: garbage") :=
  claim1_validator_failure_aborts.1 c1Catalog c1DataOf (str "TBAD", str "junk")
    [(str "TGOOD", str "junk2")] 0 0 [] (str "Invalid annual date format: garbage")
    (by decide)

end BEA
